import Mathlib

/-!
Verification of the lexical analyzers in `src/lexer.py` (GUI variant) and
`src/Analizador_Léxico.py` (command-line variant) of the
Diseno-de-Compiladores repository.

Both files drive the same loop: at the current offset, try each rule of
`token_specification` in order via `re.match`; the first rule matching a
non-empty prefix wins; skip WHITESPACE/NEWLINE/COMMENT lexemes; otherwise
emit a token stamped with a source position; if no rule matches, raise
`LexerError` at the current position.  The regular expressions used are
simple enough (no backtracking into maximal character-class runs can ever
succeed) that each rule is faithfully embedded as a deterministic
prefix-matching function on `List Char`.

The loop is embedded with a fuel argument equal to the input length; since
every rule consumes at least one character this fuel is never exhausted
(proved below), so the fuel-out branch is unreachable.
-/

deriving instance DecidableEq for Except

namespace PyLex

/-- Embedding of the `LexerError` exception: the unexpected character named in
the message, together with the `line` and `col` attributes. -/
structure LexError where
  ch : Char
  line : Nat
  col : Nat
deriving DecidableEq

/-- A rule's compiled pattern: anchored at the start of the remaining input
(`re.match`), returning the matched lexeme and the rest on success. -/
abbrev Matcher := List Char → Option (List Char × List Char)

/-- `[ \t]` character class. -/
def isBlank (c : Char) : Bool := c == ' ' || c == '\t'

/-- `[A-Za-z0-9]` character class (ASCII letters and digits). -/
def isAlnum (c : Char) : Bool := c.isAlpha || c.isDigit

/-- `[A-Za-z0-9_]` character class: identifier continuation characters. -/
def isIdCont (c : Char) : Bool := c.isAlpha || c.isDigit || c == '_'

/-- `[^"\n]` character class of the string-literal rule body. -/
def isStrChar (c : Char) : Bool := !(c == '"') && !(c == '\n')

/-- A pattern of the form `[c]+`: one or more characters of a class, greedy. -/
def takeWhilePlus (p : Char → Bool) (s : List Char) : Option (List Char × List Char) :=
  if s.takeWhile p = [] then none else some (s.takeWhile p, s.dropWhile p)

/-- `\r\n|\r|\n` with the usual left-preferring alternation. -/
def matchNewline : Matcher
  | '\r' :: '\n' :: rest => some (['\r', '\n'], rest)
  | '\r' :: rest => some (['\r'], rest)
  | '\n' :: rest => some (['\n'], rest)
  | _ => none

/-- `//[A-Za-z0-9]+//`: the custom comment rule. -/
def matchComment : Matcher
  | '/' :: '/' :: rest =>
    if rest.takeWhile isAlnum = [] then none
    else
      match rest.dropWhile isAlnum with
      | '/' :: '/' :: r2 => some ('/' :: '/' :: (rest.takeWhile isAlnum ++ ['/', '/']), r2)
      | _ => none
  | _ => none

/-- `\"[^\"\n]*\"`: the string-literal rule. -/
def matchString : Matcher
  | '"' :: rest =>
    (match rest.dropWhile isStrChar with
     | '"' :: r2 => some ('"' :: (rest.takeWhile isStrChar ++ ['"']), r2)
     | _ => none)
  | _ => none

/-- The optional `(\.\d+)?` group of the number rule: consumed part and rest. -/
def numFrac : List Char → List Char × List Char
  | '.' :: r' =>
    if r'.takeWhile Char.isDigit = [] then ([], '.' :: r')
    else ('.' :: r'.takeWhile Char.isDigit, r'.dropWhile Char.isDigit)
  | r1 => ([], r1)

/-- The optional `[+-]?` sign inside the exponent group. -/
def numSign : List Char → List Char × List Char
  | k :: rr => if k == '+' || k == '-' then ([k], rr) else ([], k :: rr)
  | [] => ([], [])

/-- The optional exponent group: `([eE][+-]?\d+)?` when `upperE = true`,
`(e[+-]?\d+)?` when `upperE = false`. -/
def numExp (upperE : Bool) : List Char → List Char × List Char
  | [] => ([], [])
  | c :: r' =>
    if c == 'e' || (upperE && c == 'E') then
      if (numSign r').2.takeWhile Char.isDigit = [] then ([], c :: r')
      else (c :: ((numSign r').1 ++ (numSign r').2.takeWhile Char.isDigit),
            (numSign r').2.dropWhile Char.isDigit)
    else ([], c :: r')

/-- `\d+(\.\d+)?([eE][+-]?\d+)?` when `upperE = true` (lexer.py), and
`\d+(\.\d+)?(e[+-]?\d+)?` when `upperE = false` (Analizador_Léxico.py).
Greedy matching of each group never needs to backtrack because no group's
first character can extend the previous group's character-class run. -/
def matchNum (upperE : Bool) : Matcher := fun s =>
  if s.takeWhile Char.isDigit = [] then none
  else
    let fr := numFrac (s.dropWhile Char.isDigit)
    let ex := numExp upperE fr.2
    some (s.takeWhile Char.isDigit ++ fr.1 ++ ex.1, ex.2)

/-- A fixed-string pattern (operators and punctuation). -/
def matchLit : List Char → Matcher
  | [], s => some ([], s)
  | _ :: _, [] => none
  | l :: ls, c :: cs =>
    if c = l then
      match matchLit ls cs with
      | some (m, r) => some (l :: m, r)
      | none => none
    else none

/-- `[A-Za-z][A-Za-z0-9_]*`: the identifier rule. -/
def matchId : Matcher
  | c :: rest =>
    if c.isAlpha then some (c :: rest.takeWhile isIdCont, rest.dropWhile isIdCont)
    else none
  | [] => none

/-- First matching rule of the table wins (`for tok_name, tok_re in
token_regex_list: ... break`). -/
def firstMatch : List (String × Matcher) → List Char → Option (String × List Char × List Char)
  | [], _ => none
  | (n, f) :: rs, s =>
    match f s with
    | some (lx, r) => some (n, lx, r)
    | none => firstMatch rs s

/-- The `KEYWORDS` dictionary, defined identically in both source files. -/
def KEYWORDS : List (String × String) := [
  ("program", "PROGRAM"), ("type", "TYPE"), ("var", "VAR"), ("procedure", "PROCEDURE"),
  ("function", "FUNCTION"), ("begin", "BEGIN"), ("end", "END"), ("integer", "INTEGER"),
  ("boolean", "BOOLEAN"), ("string", "STRING_T"), ("array", "ARRAY"), ("of", "OF"),
  ("if", "IF"), ("then", "THEN"), ("else", "ELSE"), ("while", "WHILE"), ("do", "DO"),
  ("true", "TRUE"), ("false", "FALSE")]

/-- Python `dict` lookup on an association list of strings. -/
def lookupStr (k : String) : List (String × String) → Option String
  | [] => none
  | (a, b) :: rest => if k = a then some b else lookupStr k rest

/-- Python `dict.get(k, d)`. -/
def dictGet (m : List (String × String)) (k d : String) : String := (lookupStr k m).getD d

/-- `lexeme.lower()` for the ASCII lexemes produced by the `ID` rule. -/
def lowerStr (l : List Char) : String := String.mk (l.map Char.toLower)

/-- `tok_name in ("WHITESPACE", "NEWLINE", "COMMENT")`: lexemes that are
consumed but emit no token. -/
def skipName (n : String) : Bool := n == "WHITESPACE" || n == "NEWLINE" || n == "COMMENT"

/-- `re.split(r"\r\n|\r|\n", lexeme)`: the lexeme's parts between
line-break sequences, preferring `\r\n` in the left-to-right scan. -/
def splitBreaks : List Char → List (List Char)
  | [] => [[]]
  | '\r' :: '\n' :: rest => [] :: splitBreaks rest
  | '\r' :: rest => [] :: splitBreaks rest
  | '\n' :: rest => [] :: splitBreaks rest
  | c :: rest =>
    match splitBreaks rest with
    | p :: ps => (c :: p) :: ps
    | [] => [[c]]

/-- `re.findall(r"\r\n|\r|\n", lexeme)`: the line-break sequences of a
lexeme, in order. -/
def findBreaks : List Char → List (List Char)
  | '\r' :: '\n' :: rest => ['\r', '\n'] :: findBreaks rest
  | '\r' :: rest => ['\r'] :: findBreaks rest
  | '\n' :: rest => ['\n'] :: findBreaks rest
  | _ :: rest => findBreaks rest
  | [] => []

/-- Folding a cursor-advance function over a list of matched lexemes:
the cursor position after consuming them all. -/
def advFold (adv : Nat → Nat → List Char → Nat × Nat) (p : Nat × Nat)
    (L : List (String × List Char)) : Nat × Nat :=
  L.foldl (fun q nl => adv q.1 q.2 nl.2) p

/-- The driving loop shared verbatim by `lex` in `src/lexer.py` and
`src/Analizador_Léxico.py`: try the rules in order at the current offset,
fail at the current position when none matches, advance the cursor with
`adv`, skip WHITESPACE/NEWLINE/COMMENT, otherwise emit a token built by
`mk` from the rule name, the lexeme, and the cursor positions before and
after consuming it; at end of input append the token built by `eof`.
The `fuel` argument bounds the number of iterations; the callers pass the
input length, which suffices because every rule consumes at least one
character, so the fuel-out branch (mirroring the error case) is
unreachable. -/
def runLex {τ : Type} (spec : List (String × Matcher)) (adv : Nat → Nat → List Char → Nat × Nat)
    (mk : String → List Char → Nat × Nat → Nat × Nat → τ) (eof : Nat → Nat → τ) :
    Nat → Nat → Nat → List Char → Except LexError (List τ)
  | _, line, col, [] => .ok [eof line col]
  | 0, line, col, c :: _ => .error ⟨c, line, col⟩
  | fuel + 1, line, col, c :: rest =>
    match firstMatch spec (c :: rest) with
    | none => .error ⟨c, line, col⟩
    | some (name, lx, r) =>
      if skipName name then
        runLex spec adv mk eof fuel (adv line col lx).1 (adv line col lx).2 r
      else
        match runLex spec adv mk eof fuel (adv line col lx).1 (adv line col lx).2 r with
        | .ok ts => .ok (mk name lx (line, col) (adv line col lx) :: ts)
        | .error e => .error e

end PyLex

namespace Lexer

open PyLex

/-- `Token = namedtuple("Token", ["token", "cadena", "lexeme", "line", "col"])`
of `src/lexer.py`. -/
structure Token where
  token : String
  cadena : String
  lexeme : List Char
  line : Nat
  col : Nat
deriving DecidableEq

/-- `token_specification` of `src/lexer.py`, in source order; the `NUM`
pattern accepts `e` or `E` and a bare `=` rule (`EQUAL`) is present. -/
def tokenSpec : List (String × Matcher) := [
  ("WHITESPACE", takeWhilePlus isBlank),
  ("NEWLINE", matchNewline),
  ("COMMENT", matchComment),
  ("STRING", matchString),
  ("NUM", matchNum true),
  ("ASSIGN", matchLit [':', '=']),
  ("EQEQ", matchLit ['=', '=']),
  ("EQUAL", matchLit ['=']),
  ("NEQ", matchLit ['!', '=']),
  ("LE", matchLit ['<', '=']),
  ("GE", matchLit ['>', '=']),
  ("ANDAND", matchLit ['&', '&']),
  ("OROR", matchLit ['|', '|']),
  ("DOTDOT", matchLit ['.', '.']),
  ("LT", matchLit ['<']),
  ("GT", matchLit ['>']),
  ("PLUS", matchLit ['+']),
  ("MINUS", matchLit ['-']),
  ("MUL", matchLit ['*']),
  ("DIV", matchLit ['/']),
  ("MOD", matchLit ['%']),
  ("NOT", matchLit ['!']),
  ("LPAREN", matchLit ['(']),
  ("RPAREN", matchLit [')']),
  ("LBRACK", matchLit ['[']),
  ("RBRACK", matchLit [']']),
  ("DOT", matchLit ['.']),
  ("SEMI", matchLit [';']),
  ("COMMA", matchLit [',']),
  ("COLON", matchLit [':']),
  ("ID", matchId)]

/-- `DESCRIPTION_MAP` of `src/lexer.py`. -/
def DESCRIPTION_MAP : List (String × String) := [
  ("ASSIGN", "ASIGNACION"), ("EQEQ", "IGUAL_IGUAL"), ("EQUAL", "IGUAL"),
  ("NEQ", "DIFERENTE"), ("LE", "MENOR_IGUAL"), ("GE", "MAYOR_IGUAL"),
  ("LT", "MENOR"), ("GT", "MAYOR"), ("PLUS", "SUMA"), ("MINUS", "RESTA"),
  ("MUL", "MULTIPLICACION"), ("DIV", "DIVISION"), ("MOD", "MODULO"),
  ("ANDAND", "AND"), ("OROR", "OR"), ("NOT", "NEGACION"),
  ("LPAREN", "PARENTESIS_ABRE"), ("RPAREN", "PARENTESIS_CIERRA"),
  ("LBRACK", "CORCHETE_ABRE"), ("RBRACK", "CORCHETE_CIERRA"),
  ("DOTDOT", "RANGO"), ("DOT", "PUNTO"), ("SEMI", "PUNTO_Y_COMA"),
  ("COMMA", "COMA"), ("COLON", "DOS_PUNTOS"), ("ID", "IDENTIFICADOR"),
  ("NUM", "NUMERO"), ("STRING", "CADENA"), ("EOF", "EOF")]

/-- `operator_map` of `src/lexer.py` (the identity on every operator name). -/
def operatorMap : List (String × String) := [
  ("ASSIGN", "ASSIGN"), ("EQUAL", "EQUAL"), ("EQEQ", "EQEQ"), ("NEQ", "NEQ"),
  ("LE", "LE"), ("GE", "GE"), ("ANDAND", "ANDAND"), ("OROR", "OROR"),
  ("DOTDOT", "DOTDOT"), ("LT", "LT"), ("GT", "GT"), ("PLUS", "PLUS"),
  ("MINUS", "MINUS"), ("MUL", "MUL"), ("DIV", "DIV"), ("MOD", "MOD"),
  ("NOT", "NOT"), ("LPAREN", "LPAREN"), ("RPAREN", "RPAREN"),
  ("LBRACK", "LBRACK"), ("RBRACK", "RBRACK"), ("DOT", "DOT"),
  ("SEMI", "SEMI"), ("COMMA", "COMMA"), ("COLON", "COLON")]

/-- `_advance_position(line, col, lexeme)` of `src/lexer.py`. -/
def advancePosition (line col : Nat) (lexeme : List Char) : Nat × Nat :=
  if lexeme = [] then (line, col)
  else if !(lexeme.contains '\n') && !(lexeme.contains '\r') then (line, col + lexeme.length)
  else
    let parts := splitBreaks lexeme
    (line + (parts.length - 1), (parts.getLastD []).length + 1)

/-- Keyword resolution of the `ID` branch in `lex` (`src/lexer.py`
lines 124-132): lower-case lookup in `KEYWORDS`, original lexeme kept. -/
def mkIdToken (lx : List Char) (line col : Nat) : Token :=
  match lookupStr (lowerStr lx) KEYWORDS with
  | some kw => ⟨kw, "PALABRA_RESERVADA", lx, line, col⟩
  | none => ⟨"ID", dictGet DESCRIPTION_MAP "ID" "IDENTIFICADOR", lx, line, col⟩

/-- Token construction for an emitted (non-skipped) lexeme in `lex`
(`src/lexer.py` lines 124-149). -/
def mkToken (name : String) (lx : List Char) (line col : Nat) : Token :=
  if name == "ID" then mkIdToken lx line col
  else if name == "NUM" || name == "STRING" then
    ⟨name, dictGet DESCRIPTION_MAP name name, lx, line, col⟩
  else
    let ttype := dictGet operatorMap name name
    ⟨ttype, dictGet DESCRIPTION_MAP name (dictGet DESCRIPTION_MAP ttype ttype), lx, line, col⟩

/-- The end-of-input token appended by `lex` (`src/lexer.py` line 150). -/
def eofToken (line col : Nat) : Token :=
  ⟨"EOF", dictGet DESCRIPTION_MAP "EOF" "EOF", [], line, col⟩

/-- The driving loop of `lex` in `src/lexer.py`: the shared loop with this
file's rule table, `_advance_position` as cursor update, and tokens stamped
with the cursor position captured *before* consuming the lexeme
(`start_line, start_col`). -/
def lexAux : Nat → Nat → Nat → List Char → Except LexError (List Token) :=
  runLex tokenSpec advancePosition (fun name lx pre _ => mkToken name lx pre.1 pre.2) eofToken

/-- `lex(source_text)` of `src/lexer.py`. -/
def lex (s : List Char) : Except LexError (List Token) := lexAux s.length 1 1 s

end Lexer

namespace Analizador

open PyLex

/-- `Token = namedtuple("Token", ["type", "lexeme", "line", "col"])` of
`src/Analizador_Léxico.py`.  `col` is an `Int` because the code stamps
`col - len(lexeme)` after the cursor may have been reset to 1. -/
structure Token where
  type : String
  lexeme : List Char
  line : Nat
  col : Int
deriving DecidableEq

/-- `token_specification` of `src/Analizador_Léxico.py`: same rules in the
same order, but with no bare `=` (`EQUAL`) rule and a `NUM` pattern whose
exponent marker is lowercase `e` only. -/
def tokenSpec : List (String × Matcher) := [
  ("WHITESPACE", takeWhilePlus isBlank),
  ("NEWLINE", matchNewline),
  ("COMMENT", matchComment),
  ("STRING", matchString),
  ("NUM", matchNum false),
  ("ASSIGN", matchLit [':', '=']),
  ("EQEQ", matchLit ['=', '=']),
  ("NEQ", matchLit ['!', '=']),
  ("LE", matchLit ['<', '=']),
  ("GE", matchLit ['>', '=']),
  ("ANDAND", matchLit ['&', '&']),
  ("OROR", matchLit ['|', '|']),
  ("DOTDOT", matchLit ['.', '.']),
  ("LT", matchLit ['<']),
  ("GT", matchLit ['>']),
  ("PLUS", matchLit ['+']),
  ("MINUS", matchLit ['-']),
  ("MUL", matchLit ['*']),
  ("DIV", matchLit ['/']),
  ("MOD", matchLit ['%']),
  ("NOT", matchLit ['!']),
  ("LPAREN", matchLit ['(']),
  ("RPAREN", matchLit [')']),
  ("LBRACK", matchLit ['[']),
  ("RBRACK", matchLit [']']),
  ("DOT", matchLit ['.']),
  ("SEMI", matchLit [';']),
  ("COMMA", matchLit [',']),
  ("COLON", matchLit [':']),
  ("ID", matchId)]

/-- `operator_map` of `src/Analizador_Léxico.py` (renames `EQEQ` to `EQ`,
`ANDAND` to `AND`, `OROR` to `OR`). -/
def operatorMap : List (String × String) := [
  ("ASSIGN", "ASSIGN"), ("EQEQ", "EQ"), ("NEQ", "NEQ"), ("LE", "LE"), ("GE", "GE"),
  ("ANDAND", "AND"), ("OROR", "OR"), ("DOTDOT", "DOTDOT"), ("LT", "LT"), ("GT", "GT"),
  ("PLUS", "PLUS"), ("MINUS", "MINUS"), ("MUL", "MUL"), ("DIV", "DIV"), ("MOD", "MOD"),
  ("NOT", "NOT"), ("LPAREN", "LPAREN"), ("RPAREN", "RPAREN"), ("LBRACK", "LBRACK"),
  ("RBRACK", "RBRACK"), ("DOT", "DOT"), ("SEMI", "SEMI"), ("COMMA", "COMMA"),
  ("COLON", "COLON")]

/-- The inline cursor update of `lex` in `src/Analizador_Léxico.py`
(lines 100-106): count `re.findall(r"\r\n|\r|\n", lexeme)` line breaks and
reset the column to 1, or advance the column by the lexeme length. -/
def advanceStep (line col : Nat) (lexeme : List Char) : Nat × Nat :=
  if lexeme.contains '\n' || lexeme.contains '\r' then
    (line + (findBreaks lexeme).length, 1)
  else (line, col + lexeme.length)

/-- Token construction for an emitted lexeme in `lex`
(`src/Analizador_Léxico.py` lines 112-139): the position stamped is
`(line, col - len(lexeme))` with `line`/`col` already advanced. -/
def mkToken (name : String) (lx : List Char) (line2 col2 : Nat) : Token :=
  let c : Int := (col2 : Int) - lx.length
  if name == "ID" then
    match lookupStr (lowerStr lx) KEYWORDS with
    | some kw => ⟨kw, lx, line2, c⟩
    | none => ⟨"ID", lx, line2, c⟩
  else if name == "NUM" then ⟨"NUM", lx, line2, c⟩
  else if name == "STRING" then ⟨"STRING", lx, line2, c⟩
  else ⟨dictGet operatorMap name name, lx, line2, c⟩

/-- The end-of-input token appended by `lex`
(`src/Analizador_Léxico.py` line 141). -/
def eofToken (line col : Nat) : Token := ⟨"EOF", [], line, (col : Int)⟩

/-- The driving loop of `lex` in `src/Analizador_Léxico.py`: the shared loop
with this file's rule table, the inline line/column update, and tokens
stamped with `(line, col - len(lexeme))` computed from the cursor *after*
consuming the lexeme. -/
def lexAux : Nat → Nat → Nat → List Char → Except LexError (List Token) :=
  runLex tokenSpec advanceStep (fun name lx _ post => mkToken name lx post.1 post.2) eofToken

/-- `lex(source_text)` of `src/Analizador_Léxico.py`. -/
def lex (s : List Char) : Except LexError (List Token) := lexAux s.length 1 1 s

end Analizador

namespace PyLex

/-- Soundness of a rule's matcher: a match is a non-empty prefix of the
input, and the rest is exactly the input with that prefix removed. -/
def MSound (m : Matcher) : Prop :=
  ∀ s lx r, m s = some (lx, r) → lx ≠ [] ∧ s = lx ++ r

theorem msound_takeWhilePlus (p : Char → Bool) : MSound (takeWhilePlus p) := by
  intro s lx r h
  unfold takeWhilePlus at h
  split at h
  · exact absurd h (by simp)
  · next hne =>
    simp only [Option.some.injEq, Prod.mk.injEq] at h
    obtain ⟨h1, h2⟩ := h
    subst h1; subst h2
    exact ⟨hne, (List.takeWhile_append_dropWhile p s).symm⟩

theorem msound_matchNewline : MSound matchNewline := by
  intro s lx r h
  unfold matchNewline at h
  split at h <;>
    first
      | (simp only [Option.some.injEq, Prod.mk.injEq] at h
         obtain ⟨h1, h2⟩ := h
         subst h1; subst h2
         simp)
      | simp at h

theorem msound_matchComment : MSound matchComment := by
  intro s lx r h
  unfold matchComment at h
  split at h
  · next rest =>
    split at h
    · exact absurd h (by simp)
    · split at h
      · next r2 heq =>
        simp only [Option.some.injEq, Prod.mk.injEq] at h
        obtain ⟨h1, h2⟩ := h
        subst h1; subst h2
        refine ⟨by simp, ?_⟩
        have hsplit : rest.takeWhile isAlnum ++ rest.dropWhile isAlnum = rest :=
          List.takeWhile_append_dropWhile isAlnum rest
        rw [heq] at hsplit
        simp only [List.cons_append, List.append_assoc, List.nil_append, List.cons.injEq,
          true_and]
        rw [hsplit]
      · exact absurd h (by simp)
  · exact absurd h (by simp)

theorem msound_matchString : MSound matchString := by
  intro s lx r h
  unfold matchString at h
  split at h
  · next rest =>
    split at h
    · next r2 heq =>
      simp only [Option.some.injEq, Prod.mk.injEq] at h
      obtain ⟨h1, h2⟩ := h
      subst h1; subst h2
      refine ⟨by simp, ?_⟩
      have hsplit : rest.takeWhile isStrChar ++ rest.dropWhile isStrChar = rest :=
        List.takeWhile_append_dropWhile isStrChar rest
      rw [heq] at hsplit
      simp only [List.cons_append, List.append_assoc, List.nil_append, List.cons.injEq,
        true_and]
      rw [hsplit]
    · exact absurd h (by simp)
  · exact absurd h (by simp)

theorem numFrac_append (l : List Char) : (numFrac l).1 ++ (numFrac l).2 = l := by
  unfold numFrac
  split
  · next r' =>
    split
    · simp
    · simp [List.takeWhile_append_dropWhile]
  · simp

theorem numSign_append (l : List Char) : (numSign l).1 ++ (numSign l).2 = l := by
  unfold numSign
  split
  · split <;> simp
  · simp

theorem numExp_append (b : Bool) (l : List Char) : (numExp b l).1 ++ (numExp b l).2 = l := by
  unfold numExp
  split
  · simp
  · next c r' =>
    split
    · split
      · simp
      · have hs : (numSign r').1 ++ (numSign r').2 = r' := numSign_append r'
        simp only [List.cons_append, List.append_assoc, List.cons.injEq, true_and]
        rw [List.takeWhile_append_dropWhile, hs]
    · simp

theorem msound_matchNum (b : Bool) : MSound (matchNum b) := by
  intro s lx r h
  unfold matchNum at h
  split at h
  · exact absurd h (by simp)
  · next hne =>
    simp only [Option.some.injEq, Prod.mk.injEq] at h
    obtain ⟨h1, h2⟩ := h
    subst h1; subst h2
    refine ⟨by simp [hne], ?_⟩
    simp only [List.append_assoc, numExp_append, numFrac_append,
      List.takeWhile_append_dropWhile]

theorem matchLit_eq (lit : List Char) :
    ∀ s m r, matchLit lit s = some (m, r) → m = lit ∧ s = lit ++ r := by
  induction lit with
  | nil => intro s m r h; unfold matchLit at h; simp_all
  | cons l ls ih =>
    intro s m r h
    unfold matchLit at h
    match s with
    | [] => simp_all
    | c :: cs =>
      simp only at h
      split at h
      · next hcl =>
        subst hcl
        split at h
        · next m' r' heq =>
          simp only [Option.some.injEq, Prod.mk.injEq] at h
          obtain ⟨h1, h2⟩ := h
          subst h1; subst h2
          obtain ⟨hm, hs⟩ := ih cs m' r' heq
          subst hm; subst hs
          simp
        · exact absurd h (by simp)
      · exact absurd h (by simp)

theorem msound_matchLit (lit : List Char) (hne : lit ≠ []) : MSound (matchLit lit) := by
  intro s lx r h
  obtain ⟨hm, hs⟩ := matchLit_eq lit s lx r h
  subst hm
  exact ⟨hne, hs⟩

theorem msound_matchId : MSound matchId := by
  intro s lx r h
  unfold matchId at h
  split at h
  · next c rest =>
    split at h
    · simp only [Option.some.injEq, Prod.mk.injEq] at h
      obtain ⟨h1, h2⟩ := h
      subst h1; subst h2
      simp [List.takeWhile_append_dropWhile]
    · exact absurd h (by simp)
  · exact absurd h (by simp)

/-- Every rule of a table is sound. -/
def SoundSpec (spec : List (String × Matcher)) : Prop := ∀ p ∈ spec, MSound p.2

theorem firstMatch_sound {spec : List (String × Matcher)} (hs : SoundSpec spec) :
    ∀ s n lx r, firstMatch spec s = some (n, lx, r) → lx ≠ [] ∧ s = lx ++ r := by
  induction spec with
  | nil => intro s n lx r h; simp [firstMatch] at h
  | cons a rs ih =>
    obtain ⟨nm, f⟩ := a
    intro s n lx r h
    unfold firstMatch at h
    split at h
    · next lx' r' heq =>
      simp only [Option.some.injEq, Prod.mk.injEq] at h
      obtain ⟨h1, h2, h3⟩ := h
      subst h1; subst h2; subst h3
      exact hs ⟨nm, f⟩ (List.mem_cons_self _ _) s _ _ heq
    · exact ih (fun p hp => hs p (List.mem_cons_of_mem _ hp)) s n lx r h

theorem firstMatch_name_mem {spec : List (String × Matcher)} :
    ∀ s n lx r, firstMatch spec s = some (n, lx, r) → n ∈ spec.map Prod.fst := by
  induction spec with
  | nil => intro s n lx r h; simp [firstMatch] at h
  | cons a rs ih =>
    obtain ⟨nm, f⟩ := a
    intro s n lx r h
    unfold firstMatch at h
    rw [List.map_cons]
    split at h
    · simp only [Option.some.injEq, Prod.mk.injEq] at h
      obtain ⟨h1, -, -⟩ := h
      subst h1
      exact List.mem_cons_self _ _
    · exact List.mem_cons_of_mem _ (ih s n lx r h)

/-- The iteration relation of the driving loop: starting from remaining
input `s`, the rules of `spec` match the lexemes of `L` one after the
other (each the winning first match at its offset), leaving `rest`. -/
def Chain (spec : List (String × Matcher)) : List Char → List (String × List Char) → List Char → Prop
  | s, [], rest => s = rest
  | s, (n, lx) :: L, rest => ∃ r, firstMatch spec s = some (n, lx, r) ∧ Chain spec r L rest

theorem chain_reconstruct {spec : List (String × Matcher)} (hs : SoundSpec spec) :
    ∀ L s rest, Chain spec s L rest → s = (L.map Prod.snd).flatten ++ rest := by
  intro L
  induction L with
  | nil => intro s rest h; simpa [Chain] using h
  | cons a L ih =>
    intro s rest h
    obtain ⟨n, lx⟩ := a
    obtain ⟨r, hfm, hch⟩ := h
    obtain ⟨-, hsplit⟩ := firstMatch_sound hs s n lx r hfm
    subst hsplit
    simp [ih r rest hch]

theorem runLex_nil {τ : Type} (spec : List (String × Matcher))
    (adv : Nat → Nat → List Char → Nat × Nat)
    (mk : String → List Char → Nat × Nat → Nat × Nat → τ) (eof : Nat → Nat → τ)
    (fuel line col : Nat) :
    runLex spec adv mk eof fuel line col [] = .ok [eof line col] := by
  cases fuel <;> rfl

/-- Every successful run of the shared loop decomposes the input into a
chain of first-match lexemes, and the result is the emitted tokens followed
by exactly one end-of-input token stamped with the final cursor position;
every emitted token was built by `mk` from a non-skipped rule of the table
and a non-empty lexeme. -/
theorem runLex_ok_shape {τ : Type} {spec : List (String × Matcher)}
    {adv : Nat → Nat → List Char → Nat × Nat}
    {mk : String → List Char → Nat × Nat → Nat × Nat → τ} {eof : Nat → Nat → τ}
    (hs : SoundSpec spec) :
    ∀ fuel line col s ts, s.length ≤ fuel →
      runLex spec adv mk eof fuel line col s = .ok ts →
      ∃ L ts', Chain spec s L [] ∧
        ts = ts' ++ [eof (advFold adv (line, col) L).1 (advFold adv (line, col) L).2] ∧
        ∀ t ∈ ts', ∃ n lx pre post, n ∈ spec.map Prod.fst ∧ skipName n = false ∧
          lx ≠ [] ∧ post = adv pre.1 pre.2 lx ∧ t = mk n lx pre post := by
  intro fuel
  induction fuel with
  | zero =>
    intro line col s ts hf h
    cases s with
    | nil =>
      rw [runLex_nil] at h
      obtain rfl : [eof line col] = ts := by simpa using h
      exact ⟨[], [], rfl, by simp [advFold], by simp⟩
    | cons c cs => simp at hf
  | succ fuel ih =>
    intro line col s ts hf h
    cases s with
    | nil =>
      rw [runLex_nil] at h
      obtain rfl : [eof line col] = ts := by simpa using h
      exact ⟨[], [], rfl, by simp [advFold], by simp⟩
    | cons c rest =>
      simp only [runLex] at h
      split at h
      · exact absurd h (by simp)
      · next name lx r hfm =>
        obtain ⟨hlx, hsplit⟩ := firstMatch_sound hs _ _ _ _ hfm
        have hlen : r.length ≤ fuel := by
          have hl := congrArg List.length hsplit
          have hpos : 0 < lx.length := List.length_pos.mpr hlx
          simp only [List.length_cons, List.length_append] at hl hf
          omega
        split at h
        · next hskip =>
          obtain ⟨L', ts', hch, hts, hall⟩ := ih _ _ r ts hlen h
          refine ⟨(name, lx) :: L', ts', ⟨r, hfm, hch⟩, ?_, hall⟩
          simpa [advFold] using hts
        · next hskip =>
          split at h
          · next ts2 hrec =>
            obtain rfl : mk name lx (line, col) (adv line col lx) :: ts2 = ts := by
              simpa using h
            obtain ⟨L', ts', hch, hts2, hall⟩ := ih _ _ r ts2 hlen hrec
            refine ⟨(name, lx) :: L', mk name lx (line, col) (adv line col lx) :: ts',
              ⟨r, hfm, hch⟩, ?_, ?_⟩
            · subst hts2; simp [advFold]
            · intro t ht
              rcases List.mem_cons.mp ht with rfl | ht
              · exact ⟨name, lx, (line, col), adv line col lx,
                  firstMatch_name_mem _ _ _ _ hfm, Bool.not_eq_true _ ▸ (by simpa using hskip),
                  hlx, rfl, rfl⟩
              · exact hall t ht
          · next e hrec => exact absurd h (by simp)

/-- The shared loop fails with a `LexerError` exactly when some chain of
first-match lexemes leads from the initial input to a non-empty remainder
on which no rule matches; the error names the head character of that
remainder and is stamped with the cursor position reached by folding the
advance function over the consumed lexemes. -/
theorem runLex_error_iff {τ : Type} {spec : List (String × Matcher)}
    {adv : Nat → Nat → List Char → Nat × Nat}
    {mk : String → List Char → Nat × Nat → Nat × Nat → τ} {eof : Nat → Nat → τ}
    (hs : SoundSpec spec) (hnil : firstMatch spec [] = none) :
    ∀ fuel line col s e, s.length ≤ fuel →
      (runLex spec adv mk eof fuel line col s = .error e ↔
        ∃ L c rs, Chain spec s L (c :: rs) ∧ firstMatch spec (c :: rs) = none ∧
          e = ⟨c, (advFold adv (line, col) L).1, (advFold adv (line, col) L).2⟩) := by
  intro fuel
  induction fuel with
  | zero =>
    intro line col s e hf
    cases s with
    | nil =>
      rw [runLex_nil]
      constructor
      · intro h; exact absurd h (by simp)
      · rintro ⟨L, c, rs, hch, -, -⟩
        exfalso
        cases L with
        | nil => simp [Chain] at hch
        | cons a L =>
          obtain ⟨n0, lx0⟩ := a
          obtain ⟨r0, hfm0, -⟩ := hch
          rw [hnil] at hfm0
          exact absurd hfm0 (by simp)
    | cons c cs => simp at hf
  | succ fuel ih =>
    intro line col s e hf
    cases s with
    | nil =>
      rw [runLex_nil]
      constructor
      · intro h; exact absurd h (by simp)
      · rintro ⟨L, c, rs, hch, -, -⟩
        exfalso
        cases L with
        | nil => simp [Chain] at hch
        | cons a L =>
          obtain ⟨n0, lx0⟩ := a
          obtain ⟨r0, hfm0, -⟩ := hch
          rw [hnil] at hfm0
          exact absurd hfm0 (by simp)
    | cons c rest =>
      cases hfm : firstMatch spec (c :: rest) with
      | none =>
        have hrun : runLex spec adv mk eof (fuel + 1) line col (c :: rest) =
            .error ⟨c, line, col⟩ := by
          simp only [runLex, hfm]
        rw [hrun]
        constructor
        · intro h
          obtain rfl : (⟨c, line, col⟩ : LexError) = e := by simpa using h
          exact ⟨[], c, rest, rfl, hfm, by simp [advFold]⟩
        · rintro ⟨L, c', rs', hch, hfmn, rfl⟩
          cases L with
          | nil =>
            have hcc : c :: rest = c' :: rs' := hch
            obtain ⟨rfl, rfl⟩ : c = c' ∧ rest = rs' := by
              simpa using hcc
            simp [advFold]
          | cons a L =>
            obtain ⟨n0, lx0⟩ := a
            obtain ⟨r0, hfm0, -⟩ := hch
            rw [hfm] at hfm0
            exact absurd hfm0 (by simp)
      | some trip =>
        obtain ⟨name, lx, r⟩ := trip
        obtain ⟨hlx, hsplit⟩ := firstMatch_sound hs _ _ _ _ hfm
        have hlen : r.length ≤ fuel := by
          have hl := congrArg List.length hsplit
          have hpos : 0 < lx.length := List.length_pos.mpr hlx
          simp only [List.length_cons, List.length_append] at hl hf
          omega
        have hrw : runLex spec adv mk eof (fuel + 1) line col (c :: rest) = .error e ↔
            runLex spec adv mk eof fuel (adv line col lx).1 (adv line col lx).2 r = .error e := by
          simp only [runLex, hfm]
          cases hskip : skipName name
          · simp only [Bool.false_eq_true, if_false]
            cases hrec : runLex spec adv mk eof fuel (adv line col lx).1 (adv line col lx).2 r <;>
              simp [hrec]
          · simp only [if_true]
        rw [hrw, ih _ _ r e hlen]
        constructor
        · rintro ⟨L', c', rs', hch, hfmn, rfl⟩
          refine ⟨(name, lx) :: L', c', rs', ⟨r, hfm, hch⟩, hfmn, ?_⟩
          simp [advFold]
        · rintro ⟨L, c', rs', hch, hfmn, he⟩
          cases L with
          | nil =>
            have hcc : c :: rest = c' :: rs' := hch
            obtain ⟨rfl, rfl⟩ : c = c' ∧ rest = rs' := by
              simpa using hcc
            rw [hfm] at hfmn
            exact absurd hfmn (by simp)
          | cons a L' =>
            obtain ⟨n0, lx0⟩ := a
            obtain ⟨r0, hfm0, hch'⟩ := hch
            rw [hfm] at hfm0
            simp only [Option.some.injEq, Prod.mk.injEq] at hfm0
            obtain ⟨rfl, rfl, rfl⟩ := hfm0
            exact ⟨L', c', rs', hch', hfmn, by simpa [advFold] using he⟩

/-- Spec-side notion of a non-line-break character. -/
def noBreakChar (c : Char) : Bool := !(c == '\n') && !(c == '\r')

/-- One step of the spec-side line-break count, scanning from the right;
the boolean records whether the character just to the right is `\n`, so a
`\r` immediately followed by `\n` is not counted a second time. -/
def breakStep (c : Char) (acc : Nat × Bool) : Nat × Bool :=
  if c = '\n' then (acc.1 + 1, true)
  else if c = '\r' then (if acc.2 then acc.1 else acc.1 + 1, false)
  else (acc.1, false)

/-- Spec-side: the number of line-break sequences (`\r\n`, `\r` or `\n`,
with `\r\n` counted once) in a lexeme. -/
def specBreakCount (l : List Char) : Nat := (l.foldr breakStep (0, false)).1

/-- Spec-side: the number of characters after the last line-break sequence
of a lexeme (its whole length when it has no line break). -/
def specTailLen (l : List Char) : Nat := (l.reverse.takeWhile noBreakChar).length

theorem foldr_breakStep_snd (l : List Char) :
    (l.foldr breakStep (0, false)).2 = decide (l.head? = some '\n') := by
  cases l with
  | nil => rfl
  | cons c rest =>
    simp only [List.foldr_cons, List.head?_cons]
    by_cases h1 : c = '\n'
    · subst h1; simp [breakStep]
    · by_cases h2 : c = '\r'
      · subst h2; simp [breakStep]
      · simp [breakStep, h1, h2]

theorem splitBreaks_ne_nil (l : List Char) : splitBreaks l ≠ [] := by
  induction l using splitBreaks.induct with
  | case1 => simp [splitBreaks]
  | case2 rest ih => simp [splitBreaks]
  | case3 rest h ih => simp [splitBreaks]
  | case4 rest ih => simp [splitBreaks]
  | case5 c rest h1 h2 h3 p ps heq ih => simp [splitBreaks, heq]
  | case6 c rest h1 h2 h3 heq ih => simp [splitBreaks, heq]

theorem foldr_breakStep_snd_false {rest : List Char}
    (h : ∀ rest1 : List Char, rest = '\n' :: rest1 → False) :
    (rest.foldr breakStep (0, false)).2 = false := by
  rw [foldr_breakStep_snd]
  cases rest with
  | nil => simp
  | cons a t =>
    simp only [List.head?_cons, decide_eq_false_iff_not]
    intro hc
    obtain rfl : a = '\n' := by simpa using hc
    exact h t rfl

theorem splitBreaks_length (l : List Char) :
    (splitBreaks l).length = specBreakCount l + 1 := by
  induction l using splitBreaks.induct with
  | case1 => rfl
  | case2 rest ih => simp [splitBreaks, specBreakCount, breakStep, ih]
  | case3 rest h ih =>
    have hsnd := foldr_breakStep_snd_false h
    simp [splitBreaks, specBreakCount, breakStep, hsnd, ih]
  | case4 rest ih => simp [splitBreaks, specBreakCount, breakStep, ih]
  | case5 c rest h1 h2 h3 p ps heq ih =>
    have hc1 : ¬ c = '\n' := fun hx => h3 hx
    have hc2 : ¬ c = '\r' := fun hx => h2 hx
    simp only [splitBreaks, heq, List.length_cons, specBreakCount, List.foldr_cons,
      breakStep, if_neg hc1, if_neg hc2]
    simp only [heq, List.length_cons, specBreakCount] at ih
    omega
  | case6 c rest h1 h2 h3 heq ih => exact absurd heq (splitBreaks_ne_nil rest)

theorem findBreaks_length (l : List Char) :
    (findBreaks l).length = specBreakCount l := by
  induction l using findBreaks.induct with
  | case1 rest ih => simp [findBreaks, specBreakCount, breakStep, ih]
  | case2 rest h ih =>
    have hsnd := foldr_breakStep_snd_false h
    simp [findBreaks, specBreakCount, breakStep, hsnd, ih]
  | case3 rest ih => simp [findBreaks, specBreakCount, breakStep, ih]
  | case4 c rest h1 h2 h3 ih =>
    have hc1 : ¬ c = '\n' := fun hx => h3 hx
    have hc2 : ¬ c = '\r' := fun hx => h2 hx
    simp only [findBreaks, specBreakCount, List.foldr_cons, breakStep,
      if_neg hc1, if_neg hc2] at ih ⊢
    exact ih
  | case5 => rfl

theorem splitBreaks_of_noBreak {l : List Char} (h : l.all noBreakChar = true) :
    splitBreaks l = [l] := by
  induction l using splitBreaks.induct with
  | case1 => rfl
  | case2 rest ih => simp [noBreakChar] at h
  | case3 rest hh ih => simp [noBreakChar] at h
  | case4 rest ih => simp [noBreakChar] at h
  | case5 c rest h1 h2 h3 p ps heq ih =>
    simp only [List.all_cons, Bool.and_eq_true] at h
    have hrw : splitBreaks rest = [rest] := ih h.2
    rw [hrw] at heq
    obtain ⟨rfl, rfl⟩ : rest = p ∧ ([] : List (List Char)) = ps := by simpa using heq
    simp [splitBreaks, hrw]
  | case6 c rest h1 h2 h3 heq ih => exact absurd heq (splitBreaks_ne_nil rest)

theorem specBreakCount_pos {l : List Char} (h : l.all noBreakChar = false) :
    1 ≤ specBreakCount l := by
  induction l using findBreaks.induct with
  | case1 rest ih => simp [specBreakCount, breakStep]
  | case2 rest hh ih =>
    have hsnd := foldr_breakStep_snd_false hh
    simp [specBreakCount, breakStep, hsnd]
  | case3 rest ih => simp [specBreakCount, breakStep]
  | case4 c rest h1 h2 h3 ih =>
    have hc1 : ¬ c = '\n' := fun hx => h3 hx
    have hc2 : ¬ c = '\r' := fun hx => h2 hx
    have hcn : noBreakChar c = true := by simp [noBreakChar, hc1, hc2]
    simp only [List.all_cons, hcn, Bool.true_and] at h
    simpa [specBreakCount, breakStep, if_neg hc1, if_neg hc2] using ih h
  | case5 => simp at h

theorem getLastD_irrel {α : Type} (l : List α) (h : l ≠ []) (d d' : α) :
    l.getLastD d = l.getLastD d' := by
  cases l with
  | nil => exact absurd rfl h
  | cons a t => rw [List.getLastD_cons, List.getLastD_cons]

theorem takeWhile_append_of_not_all {α : Type} {p : α → Bool} {xs ys : List α}
    (h : xs.all p = false) : (xs ++ ys).takeWhile p = xs.takeWhile p := by
  rw [List.takeWhile_append]
  split
  · next hlen =>
    exfalso
    have hpre : xs.takeWhile p <+: xs := List.takeWhile_prefix p
    have hself : xs.takeWhile p = xs := hpre.eq_of_length hlen
    have hall : xs.all p = true :=
      List.all_eq_true.mpr (fun x hx => List.mem_takeWhile_imp (hself ▸ hx))
    rw [h] at hall
    exact absurd hall (by simp)
  · rfl

theorem specTailLen_cons (c : Char) (l : List Char) :
    specTailLen (c :: l) =
      if l.all noBreakChar = true then
        (if noBreakChar c = true then l.length + 1 else l.length)
      else specTailLen l := by
  unfold specTailLen
  rw [List.reverse_cons]
  by_cases hb : l.all noBreakChar = true
  · rw [if_pos hb, List.takeWhile_append_of_pos (fun a ha =>
      (List.all_eq_true.mp hb) a (List.mem_reverse.mp ha))]
    cases hc : noBreakChar c <;> simp [List.takeWhile_cons, hc]
  · have hb' : l.all noBreakChar = false := by simpa using hb
    rw [if_neg hb, takeWhile_append_of_not_all (by simpa using hb')]

theorem splitBreaks_getLastD (l : List Char) :
    ((splitBreaks l).getLastD []).length = specTailLen l := by
  induction l using splitBreaks.induct with
  | case1 => rfl
  | case2 rest ih =>
    have hsb : splitBreaks ('\r' :: '\n' :: rest) = [] :: splitBreaks rest := by
      simp [splitBreaks]
    rw [hsb, List.getLastD_cons, specTailLen_cons,
      if_neg (by simp [noBreakChar] : ¬ (('\n' :: rest).all noBreakChar = true)),
      specTailLen_cons]
    by_cases hb : rest.all noBreakChar = true
    · rw [if_pos hb, if_neg (by simp [noBreakChar]), splitBreaks_of_noBreak hb]
      simp [List.getLastD_cons]
    · rw [if_neg hb]
      exact ih
  | case3 rest h ih =>
    have hsb : splitBreaks ('\r' :: rest) = [] :: splitBreaks rest := by
      simp [splitBreaks]
    rw [hsb, List.getLastD_cons, specTailLen_cons]
    by_cases hb : rest.all noBreakChar = true
    · rw [if_pos hb, if_neg (by simp [noBreakChar]), splitBreaks_of_noBreak hb]
      simp [List.getLastD_cons]
    · rw [if_neg hb]
      exact ih
  | case4 rest ih =>
    have hsb : splitBreaks ('\n' :: rest) = [] :: splitBreaks rest := by
      simp [splitBreaks]
    rw [hsb, List.getLastD_cons, specTailLen_cons]
    by_cases hb : rest.all noBreakChar = true
    · rw [if_pos hb, if_neg (by simp [noBreakChar]), splitBreaks_of_noBreak hb]
      simp [List.getLastD_cons]
    · rw [if_neg hb]
      exact ih
  | case5 c rest h1 h2 h3 p ps heq ih =>
    have hc1 : ¬ c = '\n' := fun hx => h3 hx
    have hc2 : ¬ c = '\r' := fun hx => h2 hx
    have hcn : noBreakChar c = true := by simp [noBreakChar, hc1, hc2]
    have hsb : splitBreaks (c :: rest) = (c :: p) :: ps := by
      simp [splitBreaks, heq]
    rw [hsb, specTailLen_cons]
    by_cases hb : rest.all noBreakChar = true
    · rw [if_pos hb, if_pos hcn]
      rw [splitBreaks_of_noBreak hb] at heq
      obtain ⟨rfl, rfl⟩ : rest = p ∧ ([] : List (List Char)) = ps := by simpa using heq
      simp [List.getLastD_cons]
    · rw [if_neg hb]
      have hb' : rest.all noBreakChar = false := by simpa using hb
      have hps : ps ≠ [] := by
        have hlen := splitBreaks_length rest
        rw [heq] at hlen
        have hcount := specBreakCount_pos hb'
        simp only [List.length_cons] at hlen
        intro hps0
        subst hps0
        simp at hlen
        omega
      calc (((c :: p) :: ps).getLastD []).length
          = (ps.getLastD (c :: p)).length := by rw [List.getLastD_cons]
        _ = (ps.getLastD p).length := by rw [getLastD_irrel ps hps]
        _ = ((p :: ps).getLastD []).length := by rw [List.getLastD_cons]
        _ = ((splitBreaks rest).getLastD []).length := by rw [heq]
        _ = specTailLen rest := ih
  | case6 c rest h1 h2 h3 heq ih => exact absurd heq (splitBreaks_ne_nil rest)

end PyLex

namespace PyLex

theorem breakFree_iff (l : List Char) :
    (l.contains '\n' || l.contains '\r') = false ↔ l.all noBreakChar = true := by
  induction l with
  | nil => simp
  | cons c t ih =>
    rw [List.all_cons, Bool.and_eq_true, ← ih, List.contains_cons, List.contains_cons]
    constructor
    · intro h
      simp only [Bool.or_eq_false_iff] at h
      obtain ⟨⟨hn1, hn⟩, hr1, hr⟩ := h
      refine ⟨?_, by rw [hn, hr]; rfl⟩
      simp only [noBreakChar, Bool.and_eq_true, Bool.not_eq_true', beq_eq_false_iff_ne]
      exact ⟨Ne.symm (by simpa using hn1), Ne.symm (by simpa using hr1)⟩
    · rintro ⟨hc, hrest⟩
      simp only [noBreakChar, Bool.and_eq_true, Bool.not_eq_true', beq_eq_false_iff_ne] at hc
      simp only [Bool.or_eq_false_iff] at hrest ⊢
      exact ⟨⟨by simpa using Ne.symm hc.1, hrest.1⟩, by simpa using Ne.symm hc.2, hrest.2⟩

theorem lookupStr_mem {k v : String} :
    ∀ m : List (String × String), lookupStr k m = some v → v ∈ m.map Prod.snd := by
  intro m
  induction m with
  | nil => intro h; simp [lookupStr] at h
  | cons a rest ih =>
    obtain ⟨ka, va⟩ := a
    intro h
    unfold lookupStr at h
    split at h
    · obtain rfl : va = v := by simpa using h
      simp
    · rw [List.map_cons]
      exact List.mem_cons_of_mem _ (ih h)

end PyLex

namespace Lexer

open PyLex

theorem soundSpec_tokenSpec : SoundSpec tokenSpec := by
  intro p hp
  fin_cases hp <;>
    first
      | exact msound_takeWhilePlus _
      | exact msound_matchNewline
      | exact msound_matchComment
      | exact msound_matchString
      | exact msound_matchNum _
      | exact msound_matchId
      | exact msound_matchLit _ (by simp)

theorem firstMatch_nil : firstMatch tokenSpec [] = none := rfl

/-- `_advance_position` on a lexeme with no line-break character: the
column advances by the lexeme length and the line is unchanged. -/
theorem advancePosition_noBreak (line col : Nat) {l : List Char}
    (h : l.all noBreakChar = true) :
    advancePosition line col l = (line, col + l.length) := by
  unfold advancePosition
  split
  · next hnil => subst hnil; simp
  · have hc := (breakFree_iff l).mpr h
    simp only [Bool.or_eq_false_iff] at hc
    rw [if_pos (by rw [hc.1, hc.2]; rfl)]

/-- `_advance_position` on a lexeme containing a line-break character: the
line advances by the number of line-break sequences and the column becomes
one plus the number of characters after the last line-break sequence. -/
theorem advancePosition_break (line col : Nat) {l : List Char}
    (h : l.all noBreakChar = false) :
    advancePosition line col l = (line + specBreakCount l, specTailLen l + 1) := by
  unfold advancePosition
  split
  · next hnil => subst hnil; simp at h
  · have hcond : (!(l.contains '\n') && !(l.contains '\r')) = false := by
      by_contra hcond'
      have hb : (!(l.contains '\n') && !(l.contains '\r')) = true := by simpa using hcond'
      simp only [Bool.and_eq_true, Bool.not_eq_true'] at hb
      have hall := (breakFree_iff l).mp (by rw [hb.1, hb.2]; rfl)
      rw [hall] at h
      exact absurd h (by simp)
    rw [hcond]
    simp only [Bool.false_eq_true, if_false]
    rw [splitBreaks_length, splitBreaks_getLastD]
    simp

theorem mkToken_lexeme (name : String) (lx : List Char) (line col : Nat) :
    (mkToken name lx line col).lexeme = lx := by
  unfold mkToken
  split
  · unfold mkIdToken
    split <;> rfl
  · split
    · rfl
    · rfl

theorem mkToken_line (name : String) (lx : List Char) (line col : Nat) :
    (mkToken name lx line col).line = line := by
  unfold mkToken
  split
  · unfold mkIdToken
    split <;> rfl
  · split
    · rfl
    · rfl

theorem mkToken_col (name : String) (lx : List Char) (line col : Nat) :
    (mkToken name lx line col).col = col := by
  unfold mkToken
  split
  · unfold mkIdToken
    split <;> rfl
  · split
    · rfl
    · rfl

theorem mkToken_ne_eof {name : String} (hmem : name ∈ tokenSpec.map Prod.fst)
    (lx : List Char) (line col : Nat) : (mkToken name lx line col).token ≠ "EOF" := by
  have hname : ¬ name = "EOF" := by fin_cases hmem <;> decide
  unfold mkToken
  split
  · unfold mkIdToken
    split
    · next kw hkw =>
      show kw ≠ "EOF"
      intro hkwEq
      subst hkwEq
      have hdec : "EOF" ∉ KEYWORDS.map Prod.snd := by decide
      exact hdec (lookupStr_mem KEYWORDS hkw)
    · show "ID" ≠ "EOF"
      decide
  · split
    · exact hname
    · show dictGet operatorMap name name ≠ "EOF"
      unfold dictGet
      cases hop : lookupStr name operatorMap with
      | none => simpa using hname
      | some v =>
        have hv := lookupStr_mem operatorMap hop
        have hne : v ≠ "EOF" := by
          intro hEq
          subst hEq
          have hdec : "EOF" ∉ operatorMap.map Prod.snd := by decide
          exact hdec hv
        simpa using hne

end Lexer

namespace Analizador

open PyLex

theorem soundSpec_tokenSpecA : SoundSpec tokenSpec := by
  intro p hp
  fin_cases hp <;>
    first
      | exact msound_takeWhilePlus _
      | exact msound_matchNewline
      | exact msound_matchComment
      | exact msound_matchString
      | exact msound_matchNum _
      | exact msound_matchId
      | exact msound_matchLit _ (by simp)

theorem firstMatch_nilA : firstMatch tokenSpec [] = none := rfl

/-- The inline cursor update on a lexeme with no line-break character. -/
theorem advanceStep_noBreak (line col : Nat) {l : List Char}
    (h : l.all noBreakChar = true) :
    advanceStep line col l = (line, col + l.length) := by
  unfold advanceStep
  have hc : (l.contains '\n' || l.contains '\r') = false := (breakFree_iff l).mpr h
  rw [hc]
  simp

theorem advanceStep_break (line col : Nat) {l : List Char}
    (h : l.all noBreakChar = false) :
    advanceStep line col l = (line + specBreakCount l, 1) := by
  unfold advanceStep
  have hc : (l.contains '\n' || l.contains '\r') = true := by
    by_contra hcond
    have hall := (breakFree_iff l).mp (by simpa using hcond)
    rw [hall] at h
    exact absurd h (by simp)
  rw [hc]
  simp [findBreaks_length]

theorem mkTokenA_lexeme (name : String) (lx : List Char) (line2 col2 : Nat) :
    (mkToken name lx line2 col2).lexeme = lx := by
  simp only [mkToken]
  split
  · split <;> rfl
  · split
    · rfl
    · split <;> rfl

theorem mkTokenA_line (name : String) (lx : List Char) (line2 col2 : Nat) :
    (mkToken name lx line2 col2).line = line2 := by
  simp only [mkToken]
  split
  · split <;> rfl
  · split
    · rfl
    · split <;> rfl

theorem mkTokenA_col (name : String) (lx : List Char) (line2 col2 : Nat) :
    (mkToken name lx line2 col2).col = (col2 : Int) - lx.length := by
  simp only [mkToken]
  split
  · split <;> rfl
  · split
    · rfl
    · split <;> rfl

theorem mkTokenA_ne_eof {name : String} (hmem : name ∈ tokenSpec.map Prod.fst)
    (lx : List Char) (line2 col2 : Nat) : (mkToken name lx line2 col2).type ≠ "EOF" := by
  have hname : ¬ name = "EOF" := by fin_cases hmem <;> decide
  simp only [mkToken]
  split
  · split
    · next kw hkw =>
      show kw ≠ "EOF"
      intro hkwEq
      subst hkwEq
      exact (by decide : "EOF" ∉ KEYWORDS.map Prod.snd) (lookupStr_mem KEYWORDS hkw)
    · show "ID" ≠ "EOF"
      decide
  · split
    · show "NUM" ≠ "EOF"
      decide
    · split
      · show "STRING" ≠ "EOF"
        decide
      · show dictGet operatorMap name name ≠ "EOF"
        unfold dictGet
        cases hop : lookupStr name operatorMap with
        | none => simpa using hname
        | some v =>
          have hv := lookupStr_mem operatorMap hop
          have hne : v ≠ "EOF" := by
            intro hEq
            subst hEq
            exact (by decide : "EOF" ∉ operatorMap.map Prod.snd) hv
          simpa using hne

/-- One non-skipped step of the loop: the emitted token is built from the
cursor position *after* the lexeme (the stamp is `col_after - len`). -/
theorem lexAuxA_emit_head (fuel line col : Nat) {c : Char} {rest : List Char}
    {name : String} {lx r : List Char} {ts : List Token}
    (hfm : firstMatch tokenSpec (c :: rest) = some (name, lx, r))
    (hskip : skipName name = false)
    (h : lexAux (fuel + 1) line col (c :: rest) = .ok ts) :
    ∃ ts', ts = mkToken name lx (advanceStep line col lx).1 (advanceStep line col lx).2 :: ts' ∧
      lexAux fuel (advanceStep line col lx).1 (advanceStep line col lx).2 r = .ok ts' := by
  simp only [lexAux, runLex] at h ⊢
  split at h
  · next heq => rw [hfm] at heq; exact absurd heq (by simp)
  · next name' lx' r' heq =>
    rw [hfm] at heq
    simp only [Option.some.injEq, Prod.mk.injEq] at heq
    obtain ⟨rfl, rfl, rfl⟩ := heq
    simp only [hskip, Bool.false_eq_true, if_false] at h
    split at h
    · next ts2 hrec =>
      simp only [Except.ok.injEq] at h
      exact ⟨ts2, h.symm, hrec⟩
    · next e hrec => exact absurd h (by simp)

end Analizador

namespace Lexer

open PyLex

/-- One non-skipped step of the loop in `src/lexer.py`: the emitted token is
built from the cursor position captured *before* consuming the lexeme. -/
theorem lexAux_emit_head (fuel line col : Nat) {c : Char} {rest : List Char}
    {name : String} {lx r : List Char} {ts : List Token}
    (hfm : firstMatch tokenSpec (c :: rest) = some (name, lx, r))
    (hskip : skipName name = false)
    (h : lexAux (fuel + 1) line col (c :: rest) = .ok ts) :
    ∃ ts', ts = mkToken name lx line col :: ts' ∧
      lexAux fuel (advancePosition line col lx).1 (advancePosition line col lx).2 r = .ok ts' := by
  simp only [lexAux, runLex] at h ⊢
  split at h
  · next heq => rw [hfm] at heq; exact absurd heq (by simp)
  · next name' lx' r' heq =>
    rw [hfm] at heq
    simp only [Option.some.injEq, Prod.mk.injEq] at heq
    obtain ⟨rfl, rfl, rfl⟩ := heq
    simp only [hskip, Bool.false_eq_true, if_false] at h
    split at h
    · next ts2 hrec =>
      simp only [Except.ok.injEq] at h
      exact ⟨ts2, h.symm, hrec⟩
    · next e hrec => exact absurd h (by simp)

end Lexer

namespace PyLex

/-- Spec-side: the 1-based line/column of the character that follows the
prefix `u` of the source text: one plus the number of line-break sequences
in `u`, and one plus the number of characters of `u` after its last
line-break sequence. -/
def charPos (u : List Char) : Nat × Nat := (1 + specBreakCount u, specTailLen u + 1)

theorem mem_of_getLast? {α : Type} {l : List α} {x : α} (h : l.getLast? = some x) : x ∈ l := by
  obtain ⟨hne, rfl⟩ := List.mem_getLast?_eq_getLast (show x ∈ l.getLast? from h)
  exact List.getLast_mem hne

theorem specBreakCount_noBreak {l : List Char} (h : l.all noBreakChar = true) :
    specBreakCount l = 0 := by
  have h1 := splitBreaks_length l
  rw [splitBreaks_of_noBreak h] at h1
  simpa using h1.symm

theorem specBreakCount_cons_eq (c : Char) (l : List Char) :
    specBreakCount (c :: l) =
      if c = '\n' then specBreakCount l + 1
      else if c = '\r' then
        (if l.head? = some '\n' then specBreakCount l else specBreakCount l + 1)
      else specBreakCount l := by
  simp only [specBreakCount, List.foldr_cons, breakStep]
  by_cases h1 : c = '\n'
  · simp [h1]
  · by_cases h2 : c = '\r'
    · simp [h1, h2, foldr_breakStep_snd]
    · simp [h1, h2]

/-- Counting line-break sequences distributes over concatenation, provided
no `\r\n` pair is split across the boundary. -/
theorem specBreakCount_append (u v : List Char)
    (h : v.head? = some '\n' → u.getLast? ≠ some '\r') :
    specBreakCount (u ++ v) = specBreakCount u + specBreakCount v := by
  induction u with
  | nil =>
    rw [List.nil_append, show specBreakCount ([] : List Char) = 0 from rfl]
    omega
  | cons c u' ih =>
    have hih : specBreakCount (u' ++ v) = specBreakCount u' + specBreakCount v := by
      apply ih
      intro hv
      cases u' with
      | nil => simp
      | cons d u'' => simpa using h hv
    rw [List.cons_append, specBreakCount_cons_eq, specBreakCount_cons_eq]
    by_cases h1 : c = '\n'
    · rw [if_pos h1, if_pos h1, hih]
      omega
    · by_cases h2 : c = '\r'
      · rw [if_neg h1, if_neg h1, if_pos h2, if_pos h2]
        cases u' with
        | nil =>
          have hv : ¬ v.head? = some '\n' := fun hv' => h hv' (by rw [h2]; rfl)
          simp only [List.nil_append]
          rw [if_neg hv, if_neg (show ¬ ([] : List Char).head? = some '\n' by simp),
            show specBreakCount ([] : List Char) = 0 from rfl]
          omega
        | cons d u'' =>
          rw [List.cons_append] at hih
          simp only [List.cons_append, List.head?_cons]
          by_cases hd : (some d : Option Char) = some '\n'
          · rw [if_pos hd, if_pos hd]
            exact hih
          · rw [if_neg hd, if_neg hd, hih]
            omega
      · rw [if_neg h1, if_neg h1, if_neg h2, if_neg h2]
        exact hih

theorem specTailLen_append_noBreak (u v : List Char) (hv : v.all noBreakChar = true) :
    specTailLen (u ++ v) = specTailLen u + v.length := by
  unfold specTailLen
  rw [List.reverse_append,
    List.takeWhile_append_of_pos (fun a ha =>
      (List.all_eq_true.mp hv) a (List.mem_reverse.mp ha))]
  simp only [List.length_append, List.length_reverse]
  omega

theorem specTailLen_append_break (u v : List Char) (hv : v.all noBreakChar = false) :
    specTailLen (u ++ v) = specTailLen v := by
  unfold specTailLen
  rw [List.reverse_append, takeWhile_append_of_not_all (by simpa using hv)]

/-- A matcher never produces a lexeme ending in `\r` while the remaining
input starts with `\n` (so counting one lexeme at a time never splits a
`\r\n` sequence). -/
def MTail (m : Matcher) : Prop :=
  ∀ s lx r, m s = some (lx, r) → r.head? = some '\n' → lx.getLast? ≠ some '\r'

theorem mtail_takeWhilePlus (p : Char → Bool) (hp : p '\r' = false) :
    MTail (takeWhilePlus p) := by
  intro s lx r h hr hlast
  unfold takeWhilePlus at h
  split at h
  · exact absurd h (by simp)
  · simp only [Option.some.injEq, Prod.mk.injEq] at h
    obtain ⟨h1, h2⟩ := h
    subst h1; subst h2
    have hmem : '\r' ∈ s.takeWhile p := mem_of_getLast? hlast
    have hpr := List.mem_takeWhile_imp hmem
    rw [hp] at hpr
    exact absurd hpr (by simp)

theorem mtail_matchNewline : MTail matchNewline := by
  intro s lx r h hr hlast
  unfold matchNewline at h
  split at h
  · simp only [Option.some.injEq, Prod.mk.injEq] at h
    obtain ⟨h1, h2⟩ := h
    subst h1; subst h2
    exact absurd hlast (by decide)
  · next rest hno =>
    simp only [Option.some.injEq, Prod.mk.injEq] at h
    obtain ⟨h1, h2⟩ := h
    subst h1; subst h2
    cases rest with
    | nil => simp at hr
    | cons a t =>
      obtain rfl : a = '\n' := by simpa using hr
      exact hno t rfl
  · simp only [Option.some.injEq, Prod.mk.injEq] at h
    obtain ⟨h1, h2⟩ := h
    subst h1; subst h2
    exact absurd hlast (by decide)
  · exact absurd h (by simp)

theorem mtail_matchComment : MTail matchComment := by
  intro s lx r h hr hlast
  unfold matchComment at h
  split at h
  · next rest =>
    split at h
    · exact absurd h (by simp)
    · split at h
      · simp only [Option.some.injEq, Prod.mk.injEq] at h
        obtain ⟨h1, h2⟩ := h
        subst h1; subst h2
        rw [show ('/' :: '/' :: (rest.takeWhile isAlnum ++ ['/', '/'])) =
          ('/' :: '/' :: (rest.takeWhile isAlnum ++ ['/'])) ++ ['/'] by simp] at hlast
        rw [List.getLast?_concat] at hlast
        exact absurd hlast (by decide)
      · exact absurd h (by simp)
  · exact absurd h (by simp)

theorem mtail_matchString : MTail matchString := by
  intro s lx r h hr hlast
  unfold matchString at h
  split at h
  · next rest =>
    split at h
    · simp only [Option.some.injEq, Prod.mk.injEq] at h
      obtain ⟨h1, h2⟩ := h
      subst h1; subst h2
      rw [show ('"' :: (rest.takeWhile isStrChar ++ ['"'])) =
        ('"' :: rest.takeWhile isStrChar) ++ ['"'] by simp] at hlast
      rw [List.getLast?_concat] at hlast
      exact absurd hlast (by decide)
    · exact absurd h (by simp)
  · exact absurd h (by simp)

theorem numFrac_chars (l : List Char) :
    ∀ x ∈ (numFrac l).1, x = '.' ∨ x.isDigit = true := by
  unfold numFrac
  split
  · split
    · simp
    · intro x hx
      simp only [List.mem_cons] at hx
      rcases hx with rfl | hx
      · exact Or.inl rfl
      · exact Or.inr (List.mem_takeWhile_imp hx)
  · simp

theorem numSign_chars (l : List Char) : ∀ x ∈ (numSign l).1, x = '+' ∨ x = '-' := by
  unfold numSign
  split
  · next k rr =>
    split
    · next hk =>
      intro x hx
      simp only [List.mem_singleton] at hx
      subst hx
      simpa using hk
    · simp
  · simp

theorem numExp_chars (b : Bool) (l : List Char) :
    ∀ x ∈ (numExp b l).1, x = 'e' ∨ x = 'E' ∨ x = '+' ∨ x = '-' ∨ x.isDigit = true := by
  unfold numExp
  split
  · simp
  · next c r' =>
    split
    · next hc =>
      split
      · simp
      · intro x hx
        simp only [List.mem_cons, List.mem_append] at hx
        rcases hx with rfl | hx | hx
        · rcases (by simpa using hc : x = 'e' ∨ b = true ∧ x = 'E') with h | ⟨-, h⟩
          · exact Or.inl h
          · exact Or.inr (Or.inl h)
        · rcases numSign_chars r' x hx with h | h
          · exact Or.inr (Or.inr (Or.inl h))
          · exact Or.inr (Or.inr (Or.inr (Or.inl h)))
        · exact Or.inr (Or.inr (Or.inr (Or.inr (List.mem_takeWhile_imp hx))))
    · simp

theorem mtail_matchNum (b : Bool) : MTail (matchNum b) := by
  intro s lx r h hr hlast
  unfold matchNum at h
  split at h
  · exact absurd h (by simp)
  · simp only [Option.some.injEq, Prod.mk.injEq] at h
    obtain ⟨h1, h2⟩ := h
    subst h1; subst h2
    have hmem := mem_of_getLast? hlast
    simp only [List.mem_append] at hmem
    rcases hmem with (hm | hm) | hm
    · have := List.mem_takeWhile_imp hm
      exact absurd this (by decide)
    · rcases numFrac_chars _ '\r' hm with hcc | hcc
      · exact absurd hcc (by decide)
      · exact absurd hcc (by decide)
    · rcases numExp_chars b _ '\r' hm with hcc | hcc | hcc | hcc | hcc <;>
        exact absurd hcc (by decide)

theorem mtail_matchLit (lit : List Char) (hl : lit.getLast? ≠ some '\r') :
    MTail (matchLit lit) := by
  intro s lx r h hr hlast
  obtain ⟨h1, -⟩ := matchLit_eq lit s lx r h
  subst h1
  exact hl hlast

theorem mtail_matchId : MTail matchId := by
  intro s lx r h hr hlast
  unfold matchId at h
  split at h
  · next c rest =>
    split at h
    · next hc =>
      simp only [Option.some.injEq, Prod.mk.injEq] at h
      obtain ⟨h1, h2⟩ := h
      subst h1; subst h2
      have hmem := mem_of_getLast? hlast
      simp only [List.mem_cons] at hmem
      rcases hmem with hm | hm
      · rw [← hm] at hc
        exact absurd hc (by decide)
      · have := List.mem_takeWhile_imp hm
        exact absurd this (by decide)
    · exact absurd h (by simp)
  · exact absurd h (by simp)

theorem firstMatch_tail {spec : List (String × Matcher)} (ht : ∀ p ∈ spec, MTail p.2) :
    ∀ s n lx r, firstMatch spec s = some (n, lx, r) →
      r.head? = some '\n' → lx.getLast? ≠ some '\r' := by
  induction spec with
  | nil => intro s n lx r h; simp [firstMatch] at h
  | cons a rs ih =>
    obtain ⟨nm, f⟩ := a
    intro s n lx r h
    unfold firstMatch at h
    split at h
    · next lx' r' heq =>
      simp only [Option.some.injEq, Prod.mk.injEq] at h
      obtain ⟨h1, h2, h3⟩ := h
      subst h1; subst h2; subst h3
      exact ht ⟨nm, f⟩ (List.mem_cons_self _ _) s _ _ heq
    · exact ih (fun p hp => ht p (List.mem_cons_of_mem _ hp)) s n lx r h

end PyLex

namespace Lexer

open PyLex

theorem mtail_tokenSpec : ∀ p ∈ tokenSpec, MTail p.2 := by
  intro p hp
  fin_cases hp <;>
    first
      | exact mtail_takeWhilePlus _ (by decide)
      | exact mtail_matchNewline
      | exact mtail_matchComment
      | exact mtail_matchString
      | exact mtail_matchNum _
      | exact mtail_matchId
      | exact mtail_matchLit _ (by decide)

/-- `_advance_position` started at the true position of a prefix lands at
the true position of the extended prefix, provided no `\r\n` pair is split
at the boundary. -/
theorem advancePosition_charPos (u v : List Char)
    (h : v.head? = some '\n' → u.getLast? ≠ some '\r') :
    advancePosition (charPos u).1 (charPos u).2 v = charPos (u ++ v) := by
  by_cases hv : v.all noBreakChar = true
  · rw [advancePosition_noBreak _ _ hv]
    unfold charPos
    rw [specBreakCount_append u v h, specTailLen_append_noBreak u v hv,
      specBreakCount_noBreak hv]
    dsimp only
    simp only [Prod.mk.injEq]
    exact ⟨by rw [Nat.add_zero], Nat.add_right_comm _ _ _⟩
  · have hv' : v.all noBreakChar = false := by simpa using hv
    rw [advancePosition_break _ _ hv']
    unfold charPos
    rw [specBreakCount_append u v h, specTailLen_append_break u v hv']
    dsimp only
    simp only [Prod.mk.injEq]
    exact ⟨Nat.add_assoc 1 _ _, trivial⟩

/-- Folding `_advance_position` over the lexemes of a chain computes the
true character position: in `src/lexer.py` the cursor always equals the
1-based position of the next character. -/
theorem chain_advFold_charPos :
    ∀ (L : List (String × List Char)) (u s rest : List Char),
      Chain tokenSpec s L rest →
      (s.head? = some '\n' → u.getLast? ≠ some '\r') →
      advFold advancePosition (charPos u) L =
        charPos (u ++ (L.map Prod.snd).flatten) := by
  intro L
  induction L with
  | nil =>
    intro u s rest hch hinv
    simp [advFold]
  | cons a L ih =>
    obtain ⟨n, lx⟩ := a
    intro u s rest hch hinv
    obtain ⟨r, hfm, hch'⟩ := hch
    obtain ⟨hlx, hsplit⟩ := firstMatch_sound soundSpec_tokenSpec s n lx r hfm
    have hstep : advancePosition (charPos u).1 (charPos u).2 lx = charPos (u ++ lx) := by
      apply advancePosition_charPos
      intro hlxh
      apply hinv
      rw [hsplit]
      cases lx with
      | nil => exact absurd rfl hlx
      | cons b bs => simpa using hlxh
    have hinv' : r.head? = some '\n' → (u ++ lx).getLast? ≠ some '\r' := by
      intro hrh
      have hne := firstMatch_tail mtail_tokenSpec s n lx r hfm hrh
      rw [List.getLast?_append_of_ne_nil u hlx]
      exact hne
    have hfold : advFold advancePosition (charPos u) ((n, lx) :: L) =
        advFold advancePosition (advancePosition (charPos u).1 (charPos u).2 lx) L := rfl
    rw [hfold, hstep, ih (u ++ lx) r rest hch' hinv']
    simp [List.append_assoc]

/-- Special case from the start of the input: the cursor fold from `(1, 1)`
over a chain is the true position of the first character after the
consumed lexemes. -/
theorem chain_charPos {s rest : List Char} {L : List (String × List Char)}
    (hch : Chain tokenSpec s L rest) :
    advFold advancePosition (1, 1) L = charPos ((L.map Prod.snd).flatten) := by
  have h := chain_advFold_charPos L [] s rest hch (by simp)
  rw [show charPos ([] : List Char) = (1, 1) from rfl] at h
  simpa using h

end Lexer

namespace Analizador

open PyLex

theorem mtail_tokenSpecA : ∀ p ∈ tokenSpec, MTail p.2 := by
  intro p hp
  fin_cases hp <;>
    first
      | exact mtail_takeWhilePlus _ (by decide)
      | exact mtail_matchNewline
      | exact mtail_matchComment
      | exact mtail_matchString
      | exact mtail_matchNum _
      | exact mtail_matchId
      | exact mtail_matchLit _ (by decide)

/-- The line component of the inline cursor update always advances by the
number of line-break sequences of the lexeme. -/
theorem advanceStep_fst (line col : Nat) (v : List Char) :
    (advanceStep line col v).1 = line + specBreakCount v := by
  by_cases hv : v.all noBreakChar = true
  · rw [advanceStep_noBreak line col hv, specBreakCount_noBreak hv]
    simp
  · rw [advanceStep_break line col (by simpa using hv)]

/-- Folding the inline cursor update of `src/Analizador_Léxico.py` over a
chain computes the true line (the column may be reset): the line equals
the start line plus the number of line-break sequences consumed. -/
theorem chain_advFold_fst :
    ∀ (L : List (String × List Char)) (p : Nat × Nat) (s rest : List Char),
      Chain tokenSpec s L rest →
      (advFold advanceStep p L).1 = p.1 + specBreakCount ((L.map Prod.snd).flatten) := by
  intro L
  induction L with
  | nil =>
    intro p s rest hch
    simp [advFold, show specBreakCount ([] : List Char) = 0 from rfl]
  | cons a L ih =>
    obtain ⟨n, lx⟩ := a
    intro p s rest hch
    obtain ⟨r, hfm, hch'⟩ := hch
    obtain ⟨hlx, hsplit⟩ := firstMatch_sound soundSpec_tokenSpecA s n lx r hfm
    have hfold : advFold advanceStep p ((n, lx) :: L) =
        advFold advanceStep (advanceStep p.1 p.2 lx) L := rfl
    rw [hfold, ih (advanceStep p.1 p.2 lx) r rest hch', advanceStep_fst]
    have hadd : specBreakCount (lx ++ (L.map Prod.snd).flatten) =
        specBreakCount lx + specBreakCount ((L.map Prod.snd).flatten) := by
      apply specBreakCount_append
      intro hfl
      have hrec := chain_reconstruct soundSpec_tokenSpecA L r rest hch'
      have hrh : r.head? = some '\n' := by
        rw [hrec]
        cases hfle : (L.map Prod.snd).flatten with
        | nil => rw [hfle] at hfl; simp at hfl
        | cons b bs =>
          rw [hfle] at hfl
          simpa using hfl
      exact firstMatch_tail mtail_tokenSpecA s n lx r hfm hrh
    simp only [List.map_cons, List.flatten_cons, hadd]
    omega

/-- Special case from the start of the input. -/
theorem chain_fst {s rest : List Char} {L : List (String × List Char)}
    (hch : Chain tokenSpec s L rest) :
    (advFold advanceStep (1, 1) L).1 = 1 + specBreakCount ((L.map Prod.snd).flatten) :=
  chain_advFold_fst L (1, 1) s rest hch

end Analizador

/-- C1: for every source text on which `lex` succeeds, the driving loop
decomposes the text into a chain of first-match lexemes (skipped ones
included) whose concatenation reconstructs the text byte for byte, in both
variants (`src/lexer.py` and `src/Analizador_Léxico.py`). -/
theorem c1_lexemes_reconstruct_source :
    (∀ s ts, Lexer.lex s = .ok ts →
      ∃ L, PyLex.Chain Lexer.tokenSpec s L [] ∧ (L.map Prod.snd).flatten = s) ∧
    (∀ s ts, Analizador.lex s = .ok ts →
      ∃ L, PyLex.Chain Analizador.tokenSpec s L [] ∧ (L.map Prod.snd).flatten = s) := by
  constructor
  · intro s ts h
    simp only [Lexer.lex, Lexer.lexAux] at h
    obtain ⟨L, ts', hch, -, -⟩ :=
      PyLex.runLex_ok_shape Lexer.soundSpec_tokenSpec s.length 1 1 s ts (le_refl _) h
    refine ⟨L, hch, ?_⟩
    have hrec := PyLex.chain_reconstruct Lexer.soundSpec_tokenSpec L s [] hch
    simpa using hrec.symm
  · intro s ts h
    simp only [Analizador.lex, Analizador.lexAux] at h
    obtain ⟨L, ts', hch, -, -⟩ :=
      PyLex.runLex_ok_shape Analizador.soundSpec_tokenSpecA s.length 1 1 s ts (le_refl _) h
    refine ⟨L, hch, ?_⟩
    have hrec := PyLex.chain_reconstruct Analizador.soundSpec_tokenSpecA L s [] hch
    simpa using hrec.symm

/-- Witness for C1 at the concrete input `x+1`. -/
theorem c1_witness :
    (∃ L, PyLex.Chain Lexer.tokenSpec ['x', '+', '1'] L [] ∧
      (L.map Prod.snd).flatten = ['x', '+', '1']) ∧
    (∃ L, PyLex.Chain Analizador.tokenSpec ['x', '+', '1'] L [] ∧
      (L.map Prod.snd).flatten = ['x', '+', '1']) :=
  ⟨c1_lexemes_reconstruct_source.1 _
      [⟨"ID", "IDENTIFICADOR", ['x'], 1, 1⟩, ⟨"PLUS", "SUMA", ['+'], 1, 2⟩,
       ⟨"NUM", "NUMERO", ['1'], 1, 3⟩, ⟨"EOF", "EOF", [], 1, 4⟩] (by decide),
   c1_lexemes_reconstruct_source.2 _
      [⟨"ID", ['x'], 1, 1⟩, ⟨"PLUS", ['+'], 1, 2⟩, ⟨"NUM", ['1'], 1, 3⟩,
       ⟨"EOF", [], 1, 4⟩] (by decide)⟩

/-- C3 (corrected): in both variants, `lex` raises a `LexerError` exactly
when a chain of first-match lexemes leads to an offset where no rule
matches; the error is raised at the first such offset, names the single
unmatched character, and is stamped with the fold of the variant's cursor
update over the consumed lexemes, and the `Except` result carries no token
sequence alongside the error.  In `src/lexer.py` that stamp is exactly the
character's true 1-based position: the line is one plus the number of
line-break sequences before it and the column is one plus the number of
characters after the last line-break sequence.  In
`src/Analizador_Léxico.py` the line is exact in the same sense, but the
column can understate the true column (it resets to 1 on any lexeme
containing a line break), so the claim's "position of that character" does
not hold for its column. -/
theorem c3_error_at_first_unmatched :
    (∀ s e, Lexer.lex s = .error e ↔
      ∃ L c rs, PyLex.Chain Lexer.tokenSpec s L (c :: rs) ∧
        PyLex.firstMatch Lexer.tokenSpec (c :: rs) = none ∧
        e = ⟨c, (PyLex.advFold Lexer.advancePosition (1, 1) L).1,
          (PyLex.advFold Lexer.advancePosition (1, 1) L).2⟩) ∧
    (∀ s e, Analizador.lex s = .error e ↔
      ∃ L c rs, PyLex.Chain Analizador.tokenSpec s L (c :: rs) ∧
        PyLex.firstMatch Analizador.tokenSpec (c :: rs) = none ∧
        e = ⟨c, (PyLex.advFold Analizador.advanceStep (1, 1) L).1,
          (PyLex.advFold Analizador.advanceStep (1, 1) L).2⟩) ∧
    (∀ s L rest, PyLex.Chain Lexer.tokenSpec s L rest →
      PyLex.advFold Lexer.advancePosition (1, 1) L =
        PyLex.charPos ((L.map Prod.snd).flatten)) ∧
    (∀ s L rest, PyLex.Chain Analizador.tokenSpec s L rest →
      (PyLex.advFold Analizador.advanceStep (1, 1) L).1 =
        1 + PyLex.specBreakCount ((L.map Prod.snd).flatten)) := by
  refine ⟨?_, ?_, ?_, ?_⟩
  · intro s e
    have hunfold : Lexer.lex s = PyLex.runLex Lexer.tokenSpec Lexer.advancePosition
        (fun name lx pre _ => Lexer.mkToken name lx pre.1 pre.2) Lexer.eofToken
        s.length 1 1 s := rfl
    rw [hunfold]
    exact @PyLex.runLex_error_iff Lexer.Token Lexer.tokenSpec Lexer.advancePosition
      (fun name lx pre _ => Lexer.mkToken name lx pre.1 pre.2) Lexer.eofToken
      Lexer.soundSpec_tokenSpec Lexer.firstMatch_nil s.length 1 1 s e (le_refl _)
  · intro s e
    have hunfold : Analizador.lex s = PyLex.runLex Analizador.tokenSpec Analizador.advanceStep
        (fun name lx _ post => Analizador.mkToken name lx post.1 post.2) Analizador.eofToken
        s.length 1 1 s := rfl
    rw [hunfold]
    exact @PyLex.runLex_error_iff Analizador.Token Analizador.tokenSpec Analizador.advanceStep
      (fun name lx _ post => Analizador.mkToken name lx post.1 post.2) Analizador.eofToken
      Analizador.soundSpec_tokenSpecA Analizador.firstMatch_nilA s.length 1 1 s e (le_refl _)
  · intro s L rest hch
    exact Lexer.chain_charPos hch
  · intro s L rest hch
    exact Analizador.chain_fst hch

/-- Witness for C3: the error instances at the concrete input `@` in both
variants, and the position-fold characterisations at a concrete one-lexeme
chain. -/
theorem c3_witness :
    ((∃ L c rs, PyLex.Chain Lexer.tokenSpec ['@'] L (c :: rs) ∧
      PyLex.firstMatch Lexer.tokenSpec (c :: rs) = none ∧
      (⟨'@', 1, 1⟩ : PyLex.LexError) =
        ⟨c, (PyLex.advFold Lexer.advancePosition (1, 1) L).1,
          (PyLex.advFold Lexer.advancePosition (1, 1) L).2⟩) ∧
    (∃ L c rs, PyLex.Chain Analizador.tokenSpec ['@'] L (c :: rs) ∧
      PyLex.firstMatch Analizador.tokenSpec (c :: rs) = none ∧
      (⟨'@', 1, 1⟩ : PyLex.LexError) =
        ⟨c, (PyLex.advFold Analizador.advanceStep (1, 1) L).1,
          (PyLex.advFold Analizador.advanceStep (1, 1) L).2⟩)) ∧
    PyLex.advFold Lexer.advancePosition (1, 1) [(("ID" : String), ['x'])] =
      PyLex.charPos (([(("ID" : String), ['x'])].map Prod.snd).flatten) ∧
    (PyLex.advFold Analizador.advanceStep (1, 1) [(("ID" : String), ['x'])]).1 =
      1 + PyLex.specBreakCount (([(("ID" : String), ['x'])].map Prod.snd).flatten) :=
  ⟨⟨(c3_error_at_first_unmatched.1 ['@'] ⟨'@', 1, 1⟩).mp (by decide),
    (c3_error_at_first_unmatched.2.1 ['@'] ⟨'@', 1, 1⟩).mp (by decide)⟩,
   c3_error_at_first_unmatched.2.2.1 ['x'] [(("ID" : String), ['x'])] []
     ⟨[], by decide, rfl⟩,
   c3_error_at_first_unmatched.2.2.2 ['x'] [(("ID" : String), ['x'])] []
     ⟨[], by decide, rfl⟩⟩

/-- Counterexample refuting C3 as stated: on the input `"a\rb"@` the
variant `src/Analizador_Léxico.py` raises its error at column 1, while
the unmatched `@` actually sits at line 2, column 3 (one plus the two
characters after the carriage return), which is what `src/lexer.py`
reports. -/
theorem c3_counterexample :
    Analizador.lex ['"', 'a', '\r', 'b', '"', '@'] = .error ⟨'@', 2, 1⟩ ∧
    Lexer.lex ['"', 'a', '\r', 'b', '"', '@'] = .error ⟨'@', 2, 3⟩ ∧
    PyLex.charPos ['"', 'a', '\r', 'b', '"'] = (2, 3) ∧
    (⟨'@', 2, 1⟩ : PyLex.LexError).col ≠ (PyLex.charPos ['"', 'a', '\r', 'b', '"']).2 := by
  decide

/-- C8: in both variants, every successful result ends in exactly one
end-of-input token (category `EOF`, empty lexeme) stamped with the final
cursor position obtained by folding the cursor update over all consumed
lexemes, and no other element has an empty lexeme or the `EOF` category. -/
theorem c8_eof_terminates_token_list :
    (∀ s ts, Lexer.lex s = .ok ts →
      ∃ L ts', PyLex.Chain Lexer.tokenSpec s L [] ∧
        ts = ts' ++ [⟨"EOF", "EOF", [], (PyLex.advFold Lexer.advancePosition (1, 1) L).1,
          (PyLex.advFold Lexer.advancePosition (1, 1) L).2⟩] ∧
        ∀ t ∈ ts', t.lexeme ≠ [] ∧ t.token ≠ "EOF") ∧
    (∀ s ts, Analizador.lex s = .ok ts →
      ∃ L ts', PyLex.Chain Analizador.tokenSpec s L [] ∧
        ts = ts' ++ [⟨"EOF", [], (PyLex.advFold Analizador.advanceStep (1, 1) L).1,
          ((PyLex.advFold Analizador.advanceStep (1, 1) L).2 : Int)⟩] ∧
        ∀ t ∈ ts', t.lexeme ≠ [] ∧ t.type ≠ "EOF") := by
  constructor
  · intro s ts h
    simp only [Lexer.lex, Lexer.lexAux] at h
    obtain ⟨L, ts', hch, hts, hall⟩ :=
      PyLex.runLex_ok_shape Lexer.soundSpec_tokenSpec s.length 1 1 s ts (le_refl _) h
    refine ⟨L, ts', hch, by simpa [Lexer.eofToken] using hts, ?_⟩
    intro t ht
    obtain ⟨n, lx, pre, post, hmem, hskip, hlx, -, rfl⟩ := hall t ht
    exact ⟨by simpa [Lexer.mkToken_lexeme] using hlx, Lexer.mkToken_ne_eof hmem lx pre.1 pre.2⟩
  · intro s ts h
    simp only [Analizador.lex, Analizador.lexAux] at h
    obtain ⟨L, ts', hch, hts, hall⟩ :=
      PyLex.runLex_ok_shape Analizador.soundSpec_tokenSpecA s.length 1 1 s ts (le_refl _) h
    refine ⟨L, ts', hch, by simpa [Analizador.eofToken] using hts, ?_⟩
    intro t ht
    obtain ⟨n, lx, pre, post, hmem, hskip, hlx, -, rfl⟩ := hall t ht
    exact ⟨by simpa [Analizador.mkTokenA_lexeme] using hlx,
      Analizador.mkTokenA_ne_eof hmem lx _ _⟩

/-- Witness for C8 at the concrete input `x+1`, in both variants. -/
theorem c8_witness :
    (∃ L ts', PyLex.Chain Lexer.tokenSpec ['x', '+', '1'] L [] ∧
      [⟨"ID", "IDENTIFICADOR", ['x'], 1, 1⟩, ⟨"PLUS", "SUMA", ['+'], 1, 2⟩,
       ⟨"NUM", "NUMERO", ['1'], 1, 3⟩, (⟨"EOF", "EOF", [], 1, 4⟩ : Lexer.Token)] =
        ts' ++ [⟨"EOF", "EOF", [], (PyLex.advFold Lexer.advancePosition (1, 1) L).1,
          (PyLex.advFold Lexer.advancePosition (1, 1) L).2⟩] ∧
      ∀ t ∈ ts', t.lexeme ≠ [] ∧ t.token ≠ "EOF") ∧
    (∃ L ts', PyLex.Chain Analizador.tokenSpec ['x', '+', '1'] L [] ∧
      [⟨"ID", ['x'], 1, 1⟩, ⟨"PLUS", ['+'], 1, 2⟩, ⟨"NUM", ['1'], 1, 3⟩,
       (⟨"EOF", [], 1, 4⟩ : Analizador.Token)] =
        ts' ++ [⟨"EOF", [], (PyLex.advFold Analizador.advanceStep (1, 1) L).1,
          ((PyLex.advFold Analizador.advanceStep (1, 1) L).2 : Int)⟩] ∧
      ∀ t ∈ ts', t.lexeme ≠ [] ∧ t.type ≠ "EOF") :=
  ⟨c8_eof_terminates_token_list.1 ['x', '+', '1'] _ (by decide),
   c8_eof_terminates_token_list.2 ['x', '+', '1'] _ (by decide)⟩

/-- C10: every rule of both tables matches only a non-empty prefix and
consumes exactly it, so every loop iteration advances the offset by at
least one character; consequently `lex` is total and returns, for every
finite input, either a single error or a finite token sequence ending in
the end-of-input marker. -/
theorem c10_lex_terminates :
    (∀ p ∈ Lexer.tokenSpec, PyLex.MSound p.2) ∧
    (∀ p ∈ Analizador.tokenSpec, PyLex.MSound p.2) ∧
    (∀ s, (∃ e, Lexer.lex s = .error e) ∨
      ∃ ts t, Lexer.lex s = .ok (ts ++ [t]) ∧ t.token = "EOF") ∧
    (∀ s, (∃ e, Analizador.lex s = .error e) ∨
      ∃ ts t, Analizador.lex s = .ok (ts ++ [t]) ∧ t.type = "EOF") := by
  refine ⟨Lexer.soundSpec_tokenSpec, Analizador.soundSpec_tokenSpecA, ?_, ?_⟩
  · intro s
    cases h : Lexer.lex s with
    | error e => exact Or.inl ⟨e, rfl⟩
    | ok ts =>
      have h' := h
      simp only [Lexer.lex, Lexer.lexAux] at h'
      obtain ⟨L, ts', -, hts, -⟩ :=
        PyLex.runLex_ok_shape Lexer.soundSpec_tokenSpec s.length 1 1 s ts (le_refl _) h'
      subst hts
      exact Or.inr ⟨ts', Lexer.eofToken (PyLex.advFold Lexer.advancePosition (1, 1) L).1
        (PyLex.advFold Lexer.advancePosition (1, 1) L).2, rfl, rfl⟩
  · intro s
    cases h : Analizador.lex s with
    | error e => exact Or.inl ⟨e, rfl⟩
    | ok ts =>
      have h' := h
      simp only [Analizador.lex, Analizador.lexAux] at h'
      obtain ⟨L, ts', -, hts, -⟩ :=
        PyLex.runLex_ok_shape Analizador.soundSpec_tokenSpecA s.length 1 1 s ts (le_refl _) h'
      subst hts
      exact Or.inr ⟨ts', Analizador.eofToken (PyLex.advFold Analizador.advanceStep (1, 1) L).1
        (PyLex.advFold Analizador.advanceStep (1, 1) L).2, rfl, rfl⟩

/-- Witness for C10: soundness of the identifier rule at a concrete input. -/
theorem c10_witness :
    (['a', 'b'] : List Char) ≠ [] ∧ ['a', 'b'] = ['a', 'b'] ++ [] :=
  c10_lex_terminates.1 ("ID", PyLex.matchId)
    (by simp [Lexer.tokenSpec]) ['a', 'b'] ['a', 'b'] [] (by decide)

namespace Lexer

open PyLex

/-- No rule of `src/lexer.py` matches at an opening quote whose string is
not terminated before the next `\n` (or end of input). -/
theorem firstMatch_unterminated_string {rest : List Char}
    (h : rest.dropWhile isStrChar = [] ∨ ∃ rs, rest.dropWhile isStrChar = '\n' :: rs) :
    firstMatch tokenSpec ('"' :: rest) = none := by
  have hstr : matchString ('"' :: rest) = none := by
    unfold matchString
    split
    · next rest1 hout =>
      injection hout with h1 h2
      subst h2
      split
      · next r2 heq =>
        rcases h with h0 | ⟨rs, h0⟩ <;> rw [h0] at heq <;> simp at heq
      · rfl
    · rfl
  simp [tokenSpec, firstMatch, takeWhilePlus, matchNewline, matchComment, matchNum,
    matchLit, matchId, isBlank, List.takeWhile_cons, hstr]

end Lexer

namespace Analizador

open PyLex

/-- No rule of `src/Analizador_Léxico.py` matches at an opening quote whose
string is not terminated before the next `\n` (or end of input). -/
theorem firstMatch_unterminated_stringA {rest : List Char}
    (h : rest.dropWhile isStrChar = [] ∨ ∃ rs, rest.dropWhile isStrChar = '\n' :: rs) :
    firstMatch tokenSpec ('"' :: rest) = none := by
  have hstr : matchString ('"' :: rest) = none := by
    unfold matchString
    split
    · next rest1 hout =>
      injection hout with h1 h2
      subst h2
      split
      · next r2 heq =>
        rcases h with h0 | ⟨rs, h0⟩ <;> rw [h0] at heq <;> simp at heq
      · rfl
    · rfl
  simp [tokenSpec, firstMatch, takeWhilePlus, matchNewline, matchComment, matchNum,
    matchLit, matchId, isBlank, List.takeWhile_cons, hstr]

/-- No rule of `src/Analizador_Léxico.py` (which has no bare `=` rule)
matches at an `=` that does not start `==`. -/
theorem firstMatch_bare_equal_none {rest : List Char} (hne : rest.head? ≠ some '=') :
    firstMatch tokenSpec ('=' :: rest) = none := by
  cases rest with
  | nil => rfl
  | cons c rs =>
    have hc : ¬ c = '=' := fun h => hne (by subst h; rfl)
    simp [tokenSpec, firstMatch, takeWhilePlus, matchNewline, matchComment, matchString,
      matchNum, matchLit, matchId, isBlank, List.takeWhile_cons, hc]

end Analizador

/-- C2 counterexample: in the minimal variant, the STRING rule can consume
a lexeme containing a carriage return (`"a<CR>b"`); the emitted token is
then stamped with line 2 and column -4, not with the cursor position
(1, 1) at which the lexeme started, refuting the claim's stamping contract
(and, with column reset to 1 rather than 1 + 2 trailing characters, its
column-reset contract). -/
theorem c2_counterexample :
    Analizador.lex ['"', 'a', '\r', 'b', '"'] =
      .ok [⟨"STRING", ['"', 'a', '\r', 'b', '"'], 2, -4⟩, ⟨"EOF", [], 2, 1⟩] ∧
    (⟨"STRING", ['"', 'a', '\r', 'b', '"'], 2, -4⟩ : Analizador.Token).line ≠ 1 := by decide

/-- C2 amended: the cursor-advance contract holds as stated in both
variants for break-free lexemes; on lexemes containing a line break the
richer variant sets the column to one plus the characters after the last
line-break sequence while the minimal variant resets it to exactly 1;
the richer variant stamps every emitted token with the cursor position
before its lexeme was consumed, while the minimal variant stamps
`(line_after, col_after - length)`, which equals the pre-position exactly
when the lexeme contains no line break. -/
theorem c2_cursor_advance_and_stamp :
    (∀ (line col : Nat) (l : List Char), l.all PyLex.noBreakChar = true →
      Lexer.advancePosition line col l = (line, col + l.length)) ∧
    (∀ (line col : Nat) (l : List Char), l.all PyLex.noBreakChar = false →
      Lexer.advancePosition line col l =
        (line + PyLex.specBreakCount l, PyLex.specTailLen l + 1)) ∧
    (∀ (line col : Nat) (l : List Char), l.all PyLex.noBreakChar = true →
      Analizador.advanceStep line col l = (line, col + l.length)) ∧
    (∀ (line col : Nat) (l : List Char), l.all PyLex.noBreakChar = false →
      Analizador.advanceStep line col l = (line + PyLex.specBreakCount l, 1)) ∧
    (∀ (fuel line col : Nat) (c : Char) (rest : List Char) (name : String)
        (lx r : List Char) (ts : List Lexer.Token),
      PyLex.firstMatch Lexer.tokenSpec (c :: rest) = some (name, lx, r) →
      PyLex.skipName name = false →
      Lexer.lexAux (fuel + 1) line col (c :: rest) = .ok ts →
      ∃ t ts', ts = t :: ts' ∧ t.line = line ∧ t.col = col ∧ t.lexeme = lx) ∧
    (∀ (fuel line col : Nat) (c : Char) (rest : List Char) (name : String)
        (lx r : List Char) (ts : List Analizador.Token),
      PyLex.firstMatch Analizador.tokenSpec (c :: rest) = some (name, lx, r) →
      PyLex.skipName name = false →
      Analizador.lexAux (fuel + 1) line col (c :: rest) = .ok ts →
      ∃ t ts', ts = t :: ts' ∧
        t.line = (Analizador.advanceStep line col lx).1 ∧
        t.col = ((Analizador.advanceStep line col lx).2 : Int) - lx.length ∧
        t.lexeme = lx ∧
        (lx.all PyLex.noBreakChar = true → t.line = line ∧ t.col = col)) := by
  refine ⟨fun line col l h => Lexer.advancePosition_noBreak line col h,
    fun line col l h => Lexer.advancePosition_break line col h,
    fun line col l h => Analizador.advanceStep_noBreak line col h,
    fun line col l h => Analizador.advanceStep_break line col h, ?_, ?_⟩
  · intro fuel line col c rest name lx r ts hfm hskip h
    obtain ⟨ts', rfl, -⟩ := Lexer.lexAux_emit_head fuel line col hfm hskip h
    exact ⟨Lexer.mkToken name lx line col, ts', rfl, Lexer.mkToken_line name lx line col,
      Lexer.mkToken_col name lx line col, Lexer.mkToken_lexeme name lx line col⟩
  · intro fuel line col c rest name lx r ts hfm hskip h
    obtain ⟨ts', rfl, -⟩ := Analizador.lexAuxA_emit_head fuel line col hfm hskip h
    refine ⟨Analizador.mkToken name lx (Analizador.advanceStep line col lx).1
        (Analizador.advanceStep line col lx).2, ts', rfl,
      Analizador.mkTokenA_line name lx _ _, Analizador.mkTokenA_col name lx _ _,
      Analizador.mkTokenA_lexeme name lx _ _, ?_⟩
    intro hnb
    rw [Analizador.advanceStep_noBreak line col hnb]
    refine ⟨Analizador.mkTokenA_line name lx _ _, ?_⟩
    rw [Analizador.mkTokenA_col name lx _ _]
    push_cast
    omega

/-- Witness for C2: concrete instances of the advance contract and of the
stamping of an emitted token in the richer variant. -/
theorem c2_witness :
    Lexer.advancePosition 1 5 ['a', '\r', 'x'] =
      (1 + PyLex.specBreakCount ['a', '\r', 'x'], PyLex.specTailLen ['a', '\r', 'x'] + 1) ∧
    Analizador.advanceStep 1 5 ['a', '\r', 'x'] =
      (1 + PyLex.specBreakCount ['a', '\r', 'x'], 1) ∧
    Lexer.advancePosition 1 5 ['a', 'b'] = (1, 5 + (['a', 'b'] : List Char).length) ∧
    (∃ t ts', ([⟨"NUM", "NUMERO", ['7'], 3, 9⟩, ⟨"EOF", "EOF", [], 3, 10⟩] :
        List Lexer.Token) = t :: ts' ∧ t.line = 3 ∧ t.col = 9 ∧ t.lexeme = ['7']) :=
  ⟨c2_cursor_advance_and_stamp.2.1 1 5 ['a', '\r', 'x'] (by decide),
   c2_cursor_advance_and_stamp.2.2.2.1 1 5 ['a', '\r', 'x'] (by decide),
   c2_cursor_advance_and_stamp.1 1 5 ['a', 'b'] (by decide),
   c2_cursor_advance_and_stamp.2.2.2.2.1 0 3 9 '7' [] "NUM" ['7'] []
     [⟨"NUM", "NUMERO", ['7'], 3, 9⟩, ⟨"EOF", "EOF", [], 3, 10⟩]
     (by decide) (by decide) (by decide)⟩

/-- C4 counterexample: on input `"a<CR>b"` the opening quote has no closing
quote before the next line-break sequence (the `<CR>`), yet the string rule
matches the whole lexeme across the carriage return and `lex` succeeds with
a STRING token instead of raising a lexical error at the opening quote. -/
theorem c4_counterexample :
    Lexer.lex ['"', 'a', '\r', 'b', '"'] =
      .ok [⟨"STRING", "CADENA", ['"', 'a', '\r', 'b', '"'], 1, 1⟩,
           ⟨"EOF", "EOF", [], 2, 3⟩] ∧
    (['a', '\r', 'b', '"'].takeWhile PyLex.noBreakChar).contains '"' = false := by decide

/-- C4 amended: the string rule matches a double quote, zero or more
characters excluding double-quote and `\n` (a carriage return is allowed),
and a closing double quote, with both delimiters in the lexeme; when an
opening quote has no closing quote before the next `\n` or end of input,
both variants raise a lexical error at the opening quote's position. -/
theorem c4_string_rule :
    (∀ (s lx r : List Char), PyLex.matchString s = some (lx, r) →
      ∃ mid, s = '"' :: (mid ++ '"' :: r) ∧ lx = '"' :: (mid ++ ['"']) ∧
        mid.all PyLex.isStrChar = true) ∧
    (∀ rest : List Char,
      (rest.dropWhile PyLex.isStrChar = [] ∨
        ∃ rs, rest.dropWhile PyLex.isStrChar = '\n' :: rs) →
      Lexer.lex ('"' :: rest) = .error ⟨'"', 1, 1⟩ ∧
      Analizador.lex ('"' :: rest) = .error ⟨'"', 1, 1⟩) ∧
    Lexer.lex "\"Texto en string lit\"".data =
      .ok [⟨"STRING", "CADENA", "\"Texto en string lit\"".data, 1, 1⟩,
           ⟨"EOF", "EOF", [], 1, 22⟩] ∧
    Analizador.lex "\"Texto en string lit\"".data =
      .ok [⟨"STRING", "\"Texto en string lit\"".data, 1, 1⟩, ⟨"EOF", [], 1, 22⟩] := by
  refine ⟨?_, ?_, by decide, by decide⟩
  · intro s lx r h
    unfold PyLex.matchString at h
    split at h
    · next rest =>
      split at h
      · next r2 heq =>
        simp only [Option.some.injEq, Prod.mk.injEq] at h
        obtain ⟨h1, h2⟩ := h
        subst h1; subst h2
        refine ⟨rest.takeWhile PyLex.isStrChar, ?_, rfl, ?_⟩
        · have hsplit : rest.takeWhile PyLex.isStrChar ++ rest.dropWhile PyLex.isStrChar =
            rest := List.takeWhile_append_dropWhile PyLex.isStrChar rest
          rw [heq] at hsplit
          rw [hsplit]
        · exact List.all_eq_true.mpr (fun x hx => List.mem_takeWhile_imp hx)
      · exact absurd h (by simp)
    · exact absurd h (by simp)
  · intro rest h
    constructor
    · have hfm := Lexer.firstMatch_unterminated_string h
      simp only [Lexer.lex, Lexer.lexAux, List.length_cons, PyLex.runLex, hfm]
    · have hfm := Analizador.firstMatch_unterminated_stringA h
      simp only [Analizador.lex, Analizador.lexAux, List.length_cons, PyLex.runLex, hfm]

/-- Witness for C4: unterminated `"a` raises the error at the quote, and
the characterization applies to the concrete match of `"ab"x`. -/
theorem c4_witness :
    (Lexer.lex ('"' :: ['a']) = .error ⟨'"', 1, 1⟩ ∧
     Analizador.lex ('"' :: ['a']) = .error ⟨'"', 1, 1⟩) ∧
    ∃ mid, ('"' :: ['a', 'b', '"', 'x'] : List Char) = '"' :: (mid ++ '"' :: ['x']) ∧
      ('"' :: ['a', 'b', '"'] : List Char) = '"' :: (mid ++ ['"']) ∧
      mid.all PyLex.isStrChar = true :=
  ⟨c4_string_rule.2.1 ['a'] (Or.inl (by decide)),
   c4_string_rule.1 ('"' :: ['a', 'b', '"', 'x']) ('"' :: ['a', 'b', '"']) ['x'] (by decide)⟩

/-- C5 counterexample: the minimal variant's number rule accepts only a
lowercase exponent marker, so `12E3` is not matched whole: it yields a NUM
token `12` followed by an ID token `E3`, not a single NUM token `12E3`. -/
theorem c5_counterexample :
    Analizador.lex ['1', '2', 'E', '3'] =
      .ok [⟨"NUM", ['1', '2'], 1, 1⟩, ⟨"ID", ['E', '3'], 1, 3⟩, ⟨"EOF", [], 1, 5⟩] ∧
    (⟨"NUM", ['1', '2'], 1, 1⟩ : Analizador.Token).lexeme ≠ ['1', '2', 'E', '3'] := by decide

/-- C5 amended: `12.3e-2`, `123` and `12e21` each yield a single NUM token
in both variants; an uppercase exponent (`12E3`) is matched whole only in
the richer variant, while the minimal variant (lowercase `e` only) splits
it into NUM `12` and ID `E3`. -/
theorem c5_number_rule :
    Lexer.lex "12.3e-2".data =
      .ok [⟨"NUM", "NUMERO", "12.3e-2".data, 1, 1⟩, ⟨"EOF", "EOF", [], 1, 8⟩] ∧
    Analizador.lex "12.3e-2".data =
      .ok [⟨"NUM", "12.3e-2".data, 1, 1⟩, ⟨"EOF", [], 1, 8⟩] ∧
    Lexer.lex "123".data =
      .ok [⟨"NUM", "NUMERO", "123".data, 1, 1⟩, ⟨"EOF", "EOF", [], 1, 4⟩] ∧
    Analizador.lex "123".data = .ok [⟨"NUM", "123".data, 1, 1⟩, ⟨"EOF", [], 1, 4⟩] ∧
    Lexer.lex "12e21".data =
      .ok [⟨"NUM", "NUMERO", "12e21".data, 1, 1⟩, ⟨"EOF", "EOF", [], 1, 6⟩] ∧
    Analizador.lex "12e21".data = .ok [⟨"NUM", "12e21".data, 1, 1⟩, ⟨"EOF", [], 1, 6⟩] ∧
    Lexer.lex "12E3".data =
      .ok [⟨"NUM", "NUMERO", "12E3".data, 1, 1⟩, ⟨"EOF", "EOF", [], 1, 5⟩] ∧
    Analizador.lex "12E3".data =
      .ok [⟨"NUM", ['1', '2'], 1, 1⟩, ⟨"ID", ['E', '3'], 1, 3⟩, ⟨"EOF", [], 1, 5⟩] := by
  decide

/-- C6: keyword resolution lower-cases an identifier-shaped lexeme and
looks it up in the closed reserved-word table; on a hit the token carries
the keyword's dedicated category with the original-case lexeme, otherwise
the category is the identifier one and the lexeme is unchanged, in both
variants; `PROGRAM` lexes to the PROGRAM-keyword category with lexeme
`PROGRAM`. -/
theorem c6_keyword_resolution :
    (∀ (lx : List Char) (line col : Nat) (kw : String),
      PyLex.lookupStr (PyLex.lowerStr lx) PyLex.KEYWORDS = some kw →
      Lexer.mkIdToken lx line col = ⟨kw, "PALABRA_RESERVADA", lx, line, col⟩) ∧
    (∀ (lx : List Char) (line col : Nat),
      PyLex.lookupStr (PyLex.lowerStr lx) PyLex.KEYWORDS = none →
      Lexer.mkIdToken lx line col = ⟨"ID", "IDENTIFICADOR", lx, line, col⟩) ∧
    (∀ (lx : List Char) (line2 col2 : Nat) (kw : String),
      PyLex.lookupStr (PyLex.lowerStr lx) PyLex.KEYWORDS = some kw →
      Analizador.mkToken "ID" lx line2 col2 = ⟨kw, lx, line2, (col2 : Int) - lx.length⟩) ∧
    (∀ (lx : List Char) (line2 col2 : Nat),
      PyLex.lookupStr (PyLex.lowerStr lx) PyLex.KEYWORDS = none →
      Analizador.mkToken "ID" lx line2 col2 = ⟨"ID", lx, line2, (col2 : Int) - lx.length⟩) ∧
    PyLex.KEYWORDS.map Prod.fst = ["program", "type", "var", "procedure", "function",
      "begin", "end", "integer", "boolean", "string", "array", "of", "if", "then",
      "else", "while", "do", "true", "false"] ∧
    Lexer.lex "PROGRAM".data =
      .ok [⟨"PROGRAM", "PALABRA_RESERVADA", "PROGRAM".data, 1, 1⟩,
           ⟨"EOF", "EOF", [], 1, 8⟩] ∧
    Analizador.lex "PROGRAM".data =
      .ok [⟨"PROGRAM", "PROGRAM".data, 1, 1⟩, ⟨"EOF", [], 1, 8⟩] := by
  refine ⟨?_, ?_, ?_, ?_, by decide, by decide, by decide⟩
  · intro lx line col kw h
    unfold Lexer.mkIdToken
    rw [h]
  · intro lx line col h
    unfold Lexer.mkIdToken
    rw [h]
    rfl
  · intro lx line2 col2 kw h
    simp only [Analizador.mkToken, h]
    rfl
  · intro lx line2 col2 h
    simp only [Analizador.mkToken, h]
    rfl

/-- Witness for C6: `PROGRAM` resolves to the PROGRAM keyword and `xy`
stays an identifier. -/
theorem c6_witness :
    Lexer.mkIdToken "PROGRAM".data 1 1 =
      ⟨"PROGRAM", "PALABRA_RESERVADA", "PROGRAM".data, 1, 1⟩ ∧
    Lexer.mkIdToken ['x', 'y'] 2 3 = ⟨"ID", "IDENTIFICADOR", ['x', 'y'], 2, 3⟩ ∧
    Analizador.mkToken "ID" "PROGRAM".data 1 8 =
      ⟨"PROGRAM", "PROGRAM".data, 1, (8 : Int) - ("PROGRAM".data).length⟩ :=
  ⟨c6_keyword_resolution.1 "PROGRAM".data 1 1 "PROGRAM" (by decide),
   c6_keyword_resolution.2.1 ['x', 'y'] 2 3 (by decide),
   c6_keyword_resolution.2.2.1 "PROGRAM".data 1 8 "PROGRAM" (by decide)⟩

/-- C7: rules are tried in table order and the first match wins: `:=`
lexes to one ASSIGN token and `//id//` is skipped whole in both variants,
and in both tables every multi-character operator precedes its
single-character prefixes and the comment rule precedes the division
rule. -/
theorem c7_rule_priority :
    Lexer.lex [':', '='] =
      .ok [⟨"ASSIGN", "ASIGNACION", [':', '='], 1, 1⟩, ⟨"EOF", "EOF", [], 1, 3⟩] ∧
    Analizador.lex [':', '='] = .ok [⟨"ASSIGN", [':', '='], 1, 1⟩, ⟨"EOF", [], 1, 3⟩] ∧
    Lexer.lex ['/', '/', 'i', 'd', '/', '/'] = .ok [⟨"EOF", "EOF", [], 1, 7⟩] ∧
    Analizador.lex ['/', '/', 'i', 'd', '/', '/'] = .ok [⟨"EOF", [], 1, 7⟩] ∧
    ((Lexer.tokenSpec.map Prod.fst).indexOf "ASSIGN" <
        (Lexer.tokenSpec.map Prod.fst).indexOf "COLON" ∧
      (Lexer.tokenSpec.map Prod.fst).indexOf "EQEQ" <
        (Lexer.tokenSpec.map Prod.fst).indexOf "EQUAL" ∧
      (Lexer.tokenSpec.map Prod.fst).indexOf "NEQ" <
        (Lexer.tokenSpec.map Prod.fst).indexOf "NOT" ∧
      (Lexer.tokenSpec.map Prod.fst).indexOf "LE" <
        (Lexer.tokenSpec.map Prod.fst).indexOf "LT" ∧
      (Lexer.tokenSpec.map Prod.fst).indexOf "GE" <
        (Lexer.tokenSpec.map Prod.fst).indexOf "GT" ∧
      (Lexer.tokenSpec.map Prod.fst).indexOf "DOTDOT" <
        (Lexer.tokenSpec.map Prod.fst).indexOf "DOT" ∧
      (Lexer.tokenSpec.map Prod.fst).indexOf "COMMENT" <
        (Lexer.tokenSpec.map Prod.fst).indexOf "DIV") ∧
    ((Analizador.tokenSpec.map Prod.fst).indexOf "ASSIGN" <
        (Analizador.tokenSpec.map Prod.fst).indexOf "COLON" ∧
      (Analizador.tokenSpec.map Prod.fst).indexOf "NEQ" <
        (Analizador.tokenSpec.map Prod.fst).indexOf "NOT" ∧
      (Analizador.tokenSpec.map Prod.fst).indexOf "LE" <
        (Analizador.tokenSpec.map Prod.fst).indexOf "LT" ∧
      (Analizador.tokenSpec.map Prod.fst).indexOf "GE" <
        (Analizador.tokenSpec.map Prod.fst).indexOf "GT" ∧
      (Analizador.tokenSpec.map Prod.fst).indexOf "DOTDOT" <
        (Analizador.tokenSpec.map Prod.fst).indexOf "DOT" ∧
      (Analizador.tokenSpec.map Prod.fst).indexOf "COMMENT" <
        (Analizador.tokenSpec.map Prod.fst).indexOf "DIV") := by
  decide

/-- C9: the richer variant owns a bare `=` rule (after `==`), so `=` lexes
to EQUAL and `==` to EQEQ; the minimal variant omits it, so an `=` not
starting `==` at the current offset raises a lexical error at that
position; the bare `=` rule is the only name present in one table and
absent from the other. -/
theorem c9_bare_equal_rule :
    Lexer.lex ['='] = .ok [⟨"EQUAL", "IGUAL", ['='], 1, 1⟩, ⟨"EOF", "EOF", [], 1, 2⟩] ∧
    Lexer.lex ['=', '='] =
      .ok [⟨"EQEQ", "IGUAL_IGUAL", ['=', '='], 1, 1⟩, ⟨"EOF", "EOF", [], 1, 3⟩] ∧
    (∀ rest : List Char, rest.head? ≠ some '=' →
      Analizador.lex ('=' :: rest) = .error ⟨'=', 1, 1⟩) ∧
    (Lexer.tokenSpec.map Prod.fst).filter
      (fun n => !((Analizador.tokenSpec.map Prod.fst).contains n)) = ["EQUAL"] ∧
    (Analizador.tokenSpec.map Prod.fst).filter
      (fun n => !((Lexer.tokenSpec.map Prod.fst).contains n)) = [] := by
  refine ⟨by decide, by decide, ?_, by decide, by decide⟩
  intro rest hne
  have hfm := Analizador.firstMatch_bare_equal_none hne
  simp only [Analizador.lex, Analizador.lexAux, List.length_cons, PyLex.runLex, hfm]

/-- Witness for C9: an `=` followed by `x` fails in the minimal variant at
the position of the `=`. -/
theorem c9_witness : Analizador.lex ('=' :: ['x']) = .error ⟨'=', 1, 1⟩ :=
  c9_bare_equal_rule.2.2.1 ['x'] (by decide)


